import Mathlib

/-!
Verification of the cutting-plane / ellipsoid-method core of the `ell-cpp`
repository.  The development shallowly embeds the search-driver loops
(`cutting_plane_feas`, `cutting_plane_optim`, `cutting_plane_q`, `bsearch`,
`bsearch_adaptor::assess_bs`), the LDLT factorization manager
(`LDLTMgr::factor`, `factor_with_allow_semidefinte`, `witness`) and the
profit oracle (`ProfitOracle::assess_optim`), and proves the behavioural
claims stated about them.

Scalars of the driver layer and of the LDLT manager are embedded as `ℚ`
(the C++ uses `double`; the claims are about control flow and exact
algebra, not rounding).  The profit oracle uses `exp`/`log` and is
embedded over `ℝ`.
-/

namespace EllCpp

/-- `CutStatus` from `ell_config.hpp`:
`enum class CutStatus { Success, NoSoln, SmallEnough, NoEffect }`. -/
inductive CutStatus where
  | Success
  | NoSoln
  | SmallEnough
  | NoEffect
deriving DecidableEq, Repr

/-- `Options` from `ell_config.hpp`: iteration cap and tolerance. -/
structure Options where
  max_iter : ℕ := 2000
  tol : ℚ := 1 / 100000000
deriving DecidableEq, Repr

/-! ## The abstract oracle/space interface used by `cutting_plane_feas`

The C++ drivers are templates over an oracle and a search space; both are
mutated in place.  We embed them as state-transition functions over opaque
state types `Ω` (oracle) and `S` (space), with `C` the cut type and `V`
the vector (center) type. -/

/-- Interface consumed by `cutting_plane_feas`:
`assess_feas` may mutate the oracle and returns an optional cut
(`none` = the query point is feasible); the space offers `xc`, `update`
(returning the mutated space and a `CutStatus`) and `tsq`. -/
structure FeasSys (Ω S C V : Type) where
  assess_feas : Ω → V → Ω × Option C
  xc : S → V
  update : S → C → S × CutStatus
  tsq : S → ℚ

/-- Result of `cutting_plane_feas` (the C++ `CInfo` plus the final oracle
and space states, which the C++ caller observes through the mutated
references). -/
structure FeasInfo (Ω S : Type) where
  omega : Ω
  space : S
  feasible : Bool
  num_iters : ℕ

/-- Loop body of `cutting_plane_feas`, recursing on the remaining fuel
(`fuel` = `max_iter - niter`). -/
def cpFeasAux (P : FeasSys Ω S C V) (tol : ℚ) :
    ℕ → ℕ → Ω → S → FeasInfo Ω S
  | 0, niter, om, s => ⟨om, s, false, niter⟩
  | fuel+1, niter, om, s =>
    match P.assess_feas om (P.xc s) with
    | (om', none) => ⟨om', s, true, niter⟩
    | (om', some cut) =>
      let r := P.update s cut
      if r.2 ≠ CutStatus.Success ∨ P.tsq r.1 < tol then ⟨om', r.1, false, niter⟩
      else cpFeasAux P tol fuel (niter+1) om' r.1

/-- `cutting_plane_feas` (from `cutting_plane.hpp`): find a point in a
convex set described by a separation oracle. -/
def cutting_plane_feas (P : FeasSys Ω S C V) (options : Options)
    (om : Ω) (s : S) : FeasInfo Ω S :=
  cpFeasAux P options.tol options.max_iter 0 om s

/-! ### Straight-line trace of the feasibility loop

`feasState P om₀ s₀ n` is the (oracle, space) pair at the start of
iteration `n`, had the loop run `n` iterations without stopping. -/

/-- One iteration of the feasibility loop, ignoring termination tests. -/
def feasStep (P : FeasSys Ω S C V) (oms : Ω × S) : Ω × S :=
  match P.assess_feas oms.1 (P.xc oms.2) with
  | (om', none) => (om', oms.2)
  | (om', some cut) => (om', (P.update oms.2 cut).1)

/-- State at the start of iteration `n` of the feasibility loop. -/
def feasState (P : FeasSys Ω S C V) (om₀ : Ω) (s₀ : S) : ℕ → Ω × S
  | 0 => (om₀, s₀)
  | n+1 => feasStep P (feasState P om₀ s₀ n)

/-- The oracle's answer at iteration `n`. -/
def feasOracleAt (P : FeasSys Ω S C V) (om₀ : Ω) (s₀ : S) (n : ℕ) :
    Ω × Option C :=
  P.assess_feas (feasState P om₀ s₀ n).1 (P.xc (feasState P om₀ s₀ n).2)

/-- Iteration `n` finds the query point feasible (oracle returns null). -/
def feasDoneAt (P : FeasSys Ω S C V) (om₀ : Ω) (s₀ : S) (n : ℕ) : Bool :=
  (feasOracleAt P om₀ s₀ n).2.isNone

/-- Iteration `n` returns a cut whose update stops the loop
(status ≠ `Success`, or `tsq` of the updated space below `tol`). -/
def feasCutStopAt (P : FeasSys Ω S C V) (om₀ : Ω) (s₀ : S) (tol : ℚ)
    (n : ℕ) : Bool :=
  match feasOracleAt P om₀ s₀ n with
  | (_, none) => false
  | (_, some cut) =>
    let r := P.update (feasState P om₀ s₀ n).2 cut
    decide (r.2 ≠ CutStatus.Success ∨ P.tsq r.1 < tol)

/-- Iteration `n` terminates the feasibility loop. -/
def feasTermAt (P : FeasSys Ω S C V) (om₀ : Ω) (s₀ : S) (tol : ℚ)
    (n : ℕ) : Bool :=
  feasDoneAt P om₀ s₀ n || feasCutStopAt P om₀ s₀ tol n

/-- If iteration `n` does not terminate, the loop body advances the state
to `feasState (n+1)` and increments the counter. -/
lemma cpFeasAux_step (P : FeasSys Ω S C V) (om₀ : Ω) (s₀ : S) (tol : ℚ)
    (fuel niter n : ℕ) (h : feasTermAt P om₀ s₀ tol n = false) :
    cpFeasAux P tol (fuel+1) niter (feasState P om₀ s₀ n).1
        (feasState P om₀ s₀ n).2
      = cpFeasAux P tol fuel (niter+1) (feasState P om₀ s₀ (n+1)).1
        (feasState P om₀ s₀ (n+1)).2 := by
  simp only [feasTermAt, Bool.or_eq_false_iff] at h
  obtain ⟨hdone, hcut⟩ := h
  rcases ho : P.assess_feas (feasState P om₀ s₀ n).1
      (P.xc (feasState P om₀ s₀ n).2) with ⟨om', oc⟩
  cases oc with
  | none =>
    exfalso
    simp only [feasDoneAt, feasOracleAt, ho, Option.isNone_none] at hdone
    exact absurd hdone (by simp)
  | some cut =>
    simp only [feasCutStopAt, feasOracleAt, ho, decide_eq_false_iff_not] at hcut
    have h2 : feasState P om₀ s₀ (n+1)
        = (om', (P.update (feasState P om₀ s₀ n).2 cut).1) := by
      simp only [feasState, feasStep, ho]
    simp only [cpFeasAux, ho]
    rw [if_neg hcut, h2]

/-- Advancing the loop `k` iterations, none of which terminates. -/
lemma cpFeasAux_advance (P : FeasSys Ω S C V) (om₀ : Ω) (s₀ : S) (tol : ℚ) :
    ∀ (k fuel niter : ℕ),
      (∀ j, j < k → feasTermAt P om₀ s₀ tol j = false) →
      cpFeasAux P tol (fuel + k) niter om₀ s₀
        = cpFeasAux P tol fuel (niter + k) (feasState P om₀ s₀ k).1
            (feasState P om₀ s₀ k).2 := by
  intro k
  induction k with
  | zero => intro fuel niter _; rfl
  | succ k ih =>
    intro fuel niter h
    have h1 : fuel + (k + 1) = (fuel + 1) + k := by omega
    rw [h1, ih (fuel + 1) niter (fun j hj => h j (by omega))]
    have h2 := cpFeasAux_step P om₀ s₀ tol fuel (niter + k) k (h k (by omega))
    rw [h2, Nat.add_assoc]

/-- If iteration `n` terminates, the loop returns with counter `niter`
and feasibility flag `feasDoneAt n`. -/
lemma cpFeasAux_term (P : FeasSys Ω S C V) (om₀ : Ω) (s₀ : S) (tol : ℚ)
    (fuel niter n : ℕ) (h : feasTermAt P om₀ s₀ tol n = true) :
    (cpFeasAux P tol (fuel+1) niter (feasState P om₀ s₀ n).1
        (feasState P om₀ s₀ n).2).feasible = feasDoneAt P om₀ s₀ n ∧
    (cpFeasAux P tol (fuel+1) niter (feasState P om₀ s₀ n).1
        (feasState P om₀ s₀ n).2).num_iters = niter := by
  rcases ho : P.assess_feas (feasState P om₀ s₀ n).1
      (P.xc (feasState P om₀ s₀ n).2) with ⟨om', oc⟩
  cases oc with
  | none =>
    constructor
    · simp only [cpFeasAux, ho]
      simp [feasDoneAt, feasOracleAt, ho]
    · simp only [cpFeasAux, ho]
  | some cut =>
    have hdone : feasDoneAt P om₀ s₀ n = false := by
      simp [feasDoneAt, feasOracleAt, ho]
    simp only [feasTermAt, hdone, Bool.false_or] at h
    simp only [feasCutStopAt, feasOracleAt, ho, decide_eq_true_eq] at h
    simp only [cpFeasAux, ho]
    rw [if_pos h]
    exact ⟨hdone.symm ▸ rfl, rfl⟩

/-- Characterization of `cutting_plane_feas` against the straight-line
trace: it returns at the first terminating iteration, reporting the
feasibility flag of that iteration, and returns `(false, max_iter)` when
no iteration below the cap terminates. -/
lemma cutting_plane_feas_char (P : FeasSys Ω S C V) (options : Options)
    (om₀ : Ω) (s₀ : S) :
    (∀ k, k < options.max_iter →
      (∀ j, j < k → feasTermAt P om₀ s₀ options.tol j = false) →
      feasTermAt P om₀ s₀ options.tol k = true →
      (cutting_plane_feas P options om₀ s₀).num_iters = k ∧
      (cutting_plane_feas P options om₀ s₀).feasible
        = feasDoneAt P om₀ s₀ k) ∧
    ((∀ j, j < options.max_iter →
        feasTermAt P om₀ s₀ options.tol j = false) →
      (cutting_plane_feas P options om₀ s₀).num_iters = options.max_iter ∧
      (cutting_plane_feas P options om₀ s₀).feasible = false) := by
  constructor
  · intro k hk hpre hterm
    have hsplit : options.max_iter = (options.max_iter - k - 1 + 1) + k := by
      omega
    have hadv := cpFeasAux_advance P om₀ s₀ options.tol k
      (options.max_iter - k - 1 + 1) 0 hpre
    have hfin := cpFeasAux_term P om₀ s₀ options.tol
      (options.max_iter - k - 1) k k hterm
    unfold cutting_plane_feas
    rw [hsplit, hadv]
    simpa using ⟨hfin.2, hfin.1⟩
  · intro hall
    have hadv := cpFeasAux_advance P om₀ s₀ options.tol options.max_iter 0 0
      (fun j hj => hall j hj)
    unfold cutting_plane_feas
    rw [show options.max_iter = 0 + options.max_iter by omega, hadv]
    simp [cpFeasAux]

/-- **C2.** `cutting_plane_feas` returns `(true, niter)` at the first
iteration where `assess_feas(xc)` returns null; otherwise it applies the
returned cut via `space.update` and returns `(false, niter)` as soon as
the update status is not `Success` or `tsq()` is below `options.tol`;
if neither occurs within `max_iter` iterations it returns
`(false, max_iter)`. -/
theorem cutting_plane_feas_spec (P : FeasSys Ω S C V) (options : Options)
    (om₀ : Ω) (s₀ : S) :
    (∀ k, k < options.max_iter →
      (∀ j, j < k → feasTermAt P om₀ s₀ options.tol j = false) →
      feasTermAt P om₀ s₀ options.tol k = true →
      (cutting_plane_feas P options om₀ s₀).num_iters = k ∧
      (cutting_plane_feas P options om₀ s₀).feasible
        = feasDoneAt P om₀ s₀ k) ∧
    ((∀ j, j < options.max_iter →
        feasTermAt P om₀ s₀ options.tol j = false) →
      (cutting_plane_feas P options om₀ s₀).num_iters = options.max_iter ∧
      (cutting_plane_feas P options om₀ s₀).feasible = false) :=
  cutting_plane_feas_char P options om₀ s₀

/-! ## `cutting_plane_optim`

The oracle's `assess_optim(xc, tea)` mutates the oracle and the mutable
objective `tea` and returns a cut together with a `shrunk` flag. -/

/-- Interface consumed by `cutting_plane_optim`. -/
structure OptimSys (Ω S C V : Type) where
  assess_optim : Ω → V → ℚ → Ω × (C × Bool) × ℚ
  xc : S → V
  update : S → C → S × CutStatus
  tsq : S → ℚ

/-- Loop body of `cutting_plane_optim`.  `x_best` starts out empty
(default-constructed in the C++), embedded as `Option V` with `none`. -/
def cpOptimAux (P : OptimSys Ω S C V) (tol : ℚ) :
    ℕ → ℕ → Ω → S → ℚ → Option V → Option V × ℕ
  | 0, niter, _, _, _, xb => (xb, niter)
  | fuel+1, niter, om, s, tea, xb =>
    let r1 := P.assess_optim om (P.xc s) tea
    let cut := r1.2.1.1
    let shrunk := r1.2.1.2
    let xb' := if shrunk then some (P.xc s) else xb
    let r := P.update s cut
    if r.2 ≠ CutStatus.Success ∨ P.tsq r.1 < tol then (xb', niter)
    else cpOptimAux P tol fuel (niter+1) r1.1 r.1 r1.2.2 xb'

/-- `cutting_plane_optim` (from `cutting_plane.hpp`). -/
def cutting_plane_optim (P : OptimSys Ω S C V) (options : Options)
    (om : Ω) (s : S) (tea : ℚ) : Option V × ℕ :=
  cpOptimAux P options.tol options.max_iter 0 om s tea none

/-- One iteration of the optimization loop, ignoring termination tests:
the oracle is consulted at the current center, then the space is updated
with the returned cut. -/
def optimStep (P : OptimSys Ω S C V) (st : Ω × S × ℚ) : Ω × S × ℚ :=
  let r1 := P.assess_optim st.1 (P.xc st.2.1) st.2.2
  (r1.1, (P.update st.2.1 r1.2.1.1).1, r1.2.2)

/-- State (oracle, space, objective) at the start of iteration `n`. -/
def optimState (P : OptimSys Ω S C V) (om₀ : Ω) (s₀ : S) (tea₀ : ℚ) :
    ℕ → Ω × S × ℚ
  | 0 => (om₀, s₀, tea₀)
  | n+1 => optimStep P (optimState P om₀ s₀ tea₀ n)

/-- The oracle's answer at iteration `n`. -/
def optimOracleAt (P : OptimSys Ω S C V) (om₀ : Ω) (s₀ : S) (tea₀ : ℚ)
    (n : ℕ) : Ω × (C × Bool) × ℚ :=
  P.assess_optim (optimState P om₀ s₀ tea₀ n).1
    (P.xc (optimState P om₀ s₀ tea₀ n).2.1)
    (optimState P om₀ s₀ tea₀ n).2.2

/-- The `shrunk` flag returned by the oracle at iteration `n`. -/
def optimShrunkAt (P : OptimSys Ω S C V) (om₀ : Ω) (s₀ : S) (tea₀ : ℚ)
    (n : ℕ) : Bool :=
  (optimOracleAt P om₀ s₀ tea₀ n).2.1.2

/-- The center the space reports at iteration `n` (queried before the
update is applied). -/
def optimXcAt (P : OptimSys Ω S C V) (om₀ : Ω) (s₀ : S) (tea₀ : ℚ)
    (n : ℕ) : V :=
  P.xc (optimState P om₀ s₀ tea₀ n).2.1

/-- Result of `space.update` at iteration `n`. -/
def optimUpdAt (P : OptimSys Ω S C V) (om₀ : Ω) (s₀ : S) (tea₀ : ℚ)
    (n : ℕ) : S × CutStatus :=
  P.update (optimState P om₀ s₀ tea₀ n).2.1
    (optimOracleAt P om₀ s₀ tea₀ n).2.1.1

/-- Iteration `n` terminates the optimization loop (update status not
`Success`, or `tsq` of the updated space below `tol`). -/
def optimTermAt (P : OptimSys Ω S C V) (om₀ : Ω) (s₀ : S) (tea₀ : ℚ)
    (tol : ℚ) (n : ℕ) : Bool :=
  decide ((optimUpdAt P om₀ s₀ tea₀ n).2 ≠ CutStatus.Success ∨
    P.tsq (optimUpdAt P om₀ s₀ tea₀ n).1 < tol)

/-- Best-so-far record after `n` complete iterations: at each iteration
whose `shrunk` flag is true, the pre-update center is recorded. -/
def optimBestAt (P : OptimSys Ω S C V) (om₀ : Ω) (s₀ : S) (tea₀ : ℚ) :
    ℕ → Option V
  | 0 => none
  | n+1 =>
    if optimShrunkAt P om₀ s₀ tea₀ n then some (optimXcAt P om₀ s₀ tea₀ n)
    else optimBestAt P om₀ s₀ tea₀ n

/-- If iteration `n` does not terminate, the loop body advances the
state and the best-so-far record. -/
lemma cpOptimAux_step (P : OptimSys Ω S C V) (om₀ : Ω) (s₀ : S) (tea₀ : ℚ)
    (tol : ℚ) (fuel niter n : ℕ)
    (h : optimTermAt P om₀ s₀ tea₀ tol n = false) :
    cpOptimAux P tol (fuel+1) niter (optimState P om₀ s₀ tea₀ n).1
        (optimState P om₀ s₀ tea₀ n).2.1 (optimState P om₀ s₀ tea₀ n).2.2
        (optimBestAt P om₀ s₀ tea₀ n)
      = cpOptimAux P tol fuel (niter+1) (optimState P om₀ s₀ tea₀ (n+1)).1
        (optimState P om₀ s₀ tea₀ (n+1)).2.1
        (optimState P om₀ s₀ tea₀ (n+1)).2.2
        (optimBestAt P om₀ s₀ tea₀ (n+1)) := by
  simp only [optimTermAt, optimUpdAt, optimOracleAt,
    decide_eq_false_iff_not] at h
  simp only [cpOptimAux]
  rw [if_neg h]
  rfl

/-- Advancing the optimization loop `k` iterations, none terminating. -/
lemma cpOptimAux_advance (P : OptimSys Ω S C V) (om₀ : Ω) (s₀ : S)
    (tea₀ : ℚ) (tol : ℚ) :
    ∀ (k fuel niter : ℕ),
      (∀ j, j < k → optimTermAt P om₀ s₀ tea₀ tol j = false) →
      cpOptimAux P tol (fuel + k) niter om₀ s₀ tea₀ none
        = cpOptimAux P tol fuel (niter + k) (optimState P om₀ s₀ tea₀ k).1
            (optimState P om₀ s₀ tea₀ k).2.1
            (optimState P om₀ s₀ tea₀ k).2.2
            (optimBestAt P om₀ s₀ tea₀ k) := by
  intro k
  induction k with
  | zero => intro fuel niter _; rfl
  | succ k ih =>
    intro fuel niter h
    have h1 : fuel + (k + 1) = (fuel + 1) + k := by omega
    rw [h1, ih (fuel + 1) niter (fun j hj => h j (by omega))]
    have h2 := cpOptimAux_step P om₀ s₀ tea₀ tol fuel (niter + k) k
      (h k (by omega))
    rw [h2, Nat.add_assoc]

/-- If iteration `n` terminates, the loop returns the best-so-far record
as updated by iteration `n`, with counter `niter`. -/
lemma cpOptimAux_term (P : OptimSys Ω S C V) (om₀ : Ω) (s₀ : S) (tea₀ : ℚ)
    (tol : ℚ) (fuel niter n : ℕ)
    (h : optimTermAt P om₀ s₀ tea₀ tol n = true) :
    cpOptimAux P tol (fuel+1) niter (optimState P om₀ s₀ tea₀ n).1
        (optimState P om₀ s₀ tea₀ n).2.1 (optimState P om₀ s₀ tea₀ n).2.2
        (optimBestAt P om₀ s₀ tea₀ n)
      = (optimBestAt P om₀ s₀ tea₀ (n+1), niter) := by
  simp only [optimTermAt, optimUpdAt, optimOracleAt, decide_eq_true_eq] at h
  simp only [cpOptimAux]
  rw [if_pos h]
  rfl

/-- Characterization of `cutting_plane_optim` against the straight-line
trace: it returns the best-so-far record and the counter of the first
terminating iteration, or `(x_best, max_iter)` when no iteration below
the cap terminates. -/
lemma cutting_plane_optim_char (P : OptimSys Ω S C V) (options : Options)
    (om₀ : Ω) (s₀ : S) (tea₀ : ℚ) :
    (∀ k, k < options.max_iter →
      (∀ j, j < k → optimTermAt P om₀ s₀ tea₀ options.tol j = false) →
      optimTermAt P om₀ s₀ tea₀ options.tol k = true →
      cutting_plane_optim P options om₀ s₀ tea₀
        = (optimBestAt P om₀ s₀ tea₀ (k+1), k)) ∧
    ((∀ j, j < options.max_iter →
        optimTermAt P om₀ s₀ tea₀ options.tol j = false) →
      cutting_plane_optim P options om₀ s₀ tea₀
        = (optimBestAt P om₀ s₀ tea₀ options.max_iter, options.max_iter)) := by
  refine ⟨?_, ?_⟩
  · intro k hk hpre hterm
    have hsplit : options.max_iter = (options.max_iter - k - 1 + 1) + k := by
      omega
    have hadv := cpOptimAux_advance P om₀ s₀ tea₀ options.tol k
      (options.max_iter - k - 1 + 1) 0 hpre
    have hfin := cpOptimAux_term P om₀ s₀ tea₀ options.tol
      (options.max_iter - k - 1) k k hterm
    unfold cutting_plane_optim
    rw [hsplit, hadv]
    simpa using hfin
  · intro hall
    have hadv := cpOptimAux_advance P om₀ s₀ tea₀ options.tol
      options.max_iter 0 0 (fun j hj => hall j hj)
    unfold cutting_plane_optim
    rw [show options.max_iter = 0 + options.max_iter by omega, hadv]
    simp [cpOptimAux]

/-- **C1.** `cutting_plane_optim` at each iteration calls `assess_optim`
on the current center; exactly when the returned `shrunk` flag is true it
records the current center as `x_best` before applying the cut (captured
by `optimBestAt`); it always updates the space with the returned cut
(captured by the state trace `optimState`); it returns `(x_best, niter)`
at the first iteration whose update status is not `Success` or whose
`tsq()` is below `options.tol`; and if `max_iter` iterations complete
without such termination it returns `(x_best, max_iter)`. -/
theorem cutting_plane_optim_spec (P : OptimSys Ω S C V) (options : Options)
    (om₀ : Ω) (s₀ : S) (tea₀ : ℚ) :
    (∀ n, optimBestAt P om₀ s₀ tea₀ (n+1)
        = (if optimShrunkAt P om₀ s₀ tea₀ n
           then some (optimXcAt P om₀ s₀ tea₀ n)
           else optimBestAt P om₀ s₀ tea₀ n)) ∧
    (∀ k, k < options.max_iter →
      (∀ j, j < k → optimTermAt P om₀ s₀ tea₀ options.tol j = false) →
      optimTermAt P om₀ s₀ tea₀ options.tol k = true →
      cutting_plane_optim P options om₀ s₀ tea₀
        = (optimBestAt P om₀ s₀ tea₀ (k+1), k)) ∧
    ((∀ j, j < options.max_iter →
        optimTermAt P om₀ s₀ tea₀ options.tol j = false) →
      cutting_plane_optim P options om₀ s₀ tea₀
        = (optimBestAt P om₀ s₀ tea₀ options.max_iter, options.max_iter)) :=
  ⟨fun _ => rfl, (cutting_plane_optim_char P options om₀ s₀ tea₀).1,
    (cutting_plane_optim_char P options om₀ s₀ tea₀).2⟩

/-! ## `cutting_plane_q` (discrete optimization)

The oracle's `assess_q(xc, tea, retry)` returns
`(cut, shrunk, x0, more_alt)` (plus the possibly-mutated oracle and
objective); `x0` is the rounded lattice point the oracle evaluated at. -/

/-- Interface consumed by `cutting_plane_q`. -/
structure QSys (Ω S C V : Type) where
  assess_q : Ω → V → ℚ → Bool → Ω × (C × Bool × V × Bool) × ℚ
  xc : S → V
  update : S → C → S × CutStatus
  tsq : S → ℚ

/-- Loop body of `cutting_plane_q`.  `mi` is `options.max_iter`, which
the `break` path reports as the iteration count. -/
def cpQAux (P : QSys Ω S C V) (tol : ℚ) (mi : ℕ) :
    ℕ → ℕ → Ω → S → ℚ → Bool → Option V → Option V × ℕ
  | 0, niter, _, _, _, _, xb => (xb, niter)
  | fuel+1, niter, om, s, tea, retry, xb =>
    let r1 := P.assess_q om (P.xc s) tea retry
    let cut := r1.2.1.1
    let shrunk := r1.2.1.2.1
    let x0 := r1.2.1.2.2.1
    let more_alt := r1.2.1.2.2.2
    let xb' := if shrunk then some x0 else xb
    let r := P.update s cut
    if r.2 = CutStatus.NoEffect then
      if ¬more_alt then (xb', mi)
      else if P.tsq r.1 < tol then (xb', niter)
      else cpQAux P tol mi fuel (niter+1) r1.1 r.1 r1.2.2 true xb'
    else if r.2 = CutStatus.NoSoln then (xb', niter)
    else if P.tsq r.1 < tol then (xb', niter)
    else cpQAux P tol mi fuel (niter+1) r1.1 r.1 r1.2.2 retry xb'

/-- `cutting_plane_q` (from `cutting_plane.hpp`).  The C++ initializes
`status = NoSoln` and `retry = (status == NoEffect)`, so the first
`retry` passed to the oracle is the comparison `NoSoln == NoEffect`. -/
def cutting_plane_q (P : QSys Ω S C V) (options : Options)
    (om : Ω) (s : S) (tea : ℚ) : Option V × ℕ :=
  let status := CutStatus.NoSoln
  let retry := decide (status = CutStatus.NoEffect)
  cpQAux P options.tol options.max_iter options.max_iter 0 om s tea retry none

/-- One iteration of the discrete loop, ignoring termination tests.
State: (oracle, space, objective, retry).  The retry flag becomes true
when the update returns `NoEffect` with `more_alt` true, and is never
reset. -/
def qStep (P : QSys Ω S C V) (st : Ω × S × ℚ × Bool) : Ω × S × ℚ × Bool :=
  let r1 := P.assess_q st.1 (P.xc st.2.1) st.2.2.1 st.2.2.2
  let r := P.update st.2.1 r1.2.1.1
  let retry' := if r.2 = CutStatus.NoEffect ∧ r1.2.1.2.2.2 then true
    else st.2.2.2
  (r1.1, r.1, r1.2.2, retry')

/-- State at the start of iteration `n` of the discrete loop. -/
def qState (P : QSys Ω S C V) (om₀ : Ω) (s₀ : S) (tea₀ : ℚ) :
    ℕ → Ω × S × ℚ × Bool
  | 0 => (om₀, s₀, tea₀, false)
  | n+1 => qStep P (qState P om₀ s₀ tea₀ n)

/-- The retry flag passed to the oracle at iteration `n`. -/
def qRetryAt (P : QSys Ω S C V) (om₀ : Ω) (s₀ : S) (tea₀ : ℚ) (n : ℕ) :
    Bool :=
  (qState P om₀ s₀ tea₀ n).2.2.2

/-- The oracle's answer at iteration `n`. -/
def qOracleAt (P : QSys Ω S C V) (om₀ : Ω) (s₀ : S) (tea₀ : ℚ) (n : ℕ) :
    Ω × (C × Bool × V × Bool) × ℚ :=
  P.assess_q (qState P om₀ s₀ tea₀ n).1 (P.xc (qState P om₀ s₀ tea₀ n).2.1)
    (qState P om₀ s₀ tea₀ n).2.2.1 (qState P om₀ s₀ tea₀ n).2.2.2

/-- The `shrunk` flag at iteration `n`. -/
def qShrunkAt (P : QSys Ω S C V) (om₀ : Ω) (s₀ : S) (tea₀ : ℚ) (n : ℕ) :
    Bool :=
  (qOracleAt P om₀ s₀ tea₀ n).2.1.2.1

/-- The rounded lattice point `x0` returned at iteration `n`. -/
def qX0At (P : QSys Ω S C V) (om₀ : Ω) (s₀ : S) (tea₀ : ℚ) (n : ℕ) : V :=
  (qOracleAt P om₀ s₀ tea₀ n).2.1.2.2.1

/-- The `more_alt` flag at iteration `n`. -/
def qMoreAltAt (P : QSys Ω S C V) (om₀ : Ω) (s₀ : S) (tea₀ : ℚ) (n : ℕ) :
    Bool :=
  (qOracleAt P om₀ s₀ tea₀ n).2.1.2.2.2

/-- Result of `space.update` at iteration `n`. -/
def qUpdAt (P : QSys Ω S C V) (om₀ : Ω) (s₀ : S) (tea₀ : ℚ) (n : ℕ) :
    S × CutStatus :=
  P.update (qState P om₀ s₀ tea₀ n).2.1 (qOracleAt P om₀ s₀ tea₀ n).2.1.1

/-- The update status at iteration `n`. -/
def qStatusAt (P : QSys Ω S C V) (om₀ : Ω) (s₀ : S) (tea₀ : ℚ) (n : ℕ) :
    CutStatus :=
  (qUpdAt P om₀ s₀ tea₀ n).2

/-- Best-so-far record after `n` iterations: at each iteration whose
`shrunk` flag is true, the oracle's lattice point `x0` is recorded. -/
def qBestAt (P : QSys Ω S C V) (om₀ : Ω) (s₀ : S) (tea₀ : ℚ) :
    ℕ → Option V
  | 0 => none
  | n+1 =>
    if qShrunkAt P om₀ s₀ tea₀ n then some (qX0At P om₀ s₀ tea₀ n)
    else qBestAt P om₀ s₀ tea₀ n

/-- Iteration `n` stops the discrete loop: `NoSoln`, or `NoEffect` with
no alternative cut available, or `tsq` below tolerance. -/
def qStopAt (P : QSys Ω S C V) (om₀ : Ω) (s₀ : S) (tea₀ : ℚ) (tol : ℚ)
    (n : ℕ) : Bool :=
  decide (qStatusAt P om₀ s₀ tea₀ n = CutStatus.NoSoln) ||
  (decide (qStatusAt P om₀ s₀ tea₀ n = CutStatus.NoEffect) &&
    !qMoreAltAt P om₀ s₀ tea₀ n) ||
  decide (P.tsq (qUpdAt P om₀ s₀ tea₀ n).1 < tol)

/-- The iteration count the loop reports when stopping at iteration `n`:
the `NoEffect`-without-alternative path leaves the loop by `break` and
reports `max_iter`; the `NoSoln` and small-`tsq` paths return `niter`. -/
def qStopItersAt (P : QSys Ω S C V) (om₀ : Ω) (s₀ : S) (tea₀ : ℚ) (mi : ℕ)
    (n : ℕ) : ℕ :=
  if qStatusAt P om₀ s₀ tea₀ n = CutStatus.NoEffect ∧
      qMoreAltAt P om₀ s₀ tea₀ n = false then mi
  else n

/-- If iteration `n` does not stop, the loop body advances the state,
the retry flag and the best-so-far record. -/
lemma cpQAux_step (P : QSys Ω S C V) (om₀ : Ω) (s₀ : S) (tea₀ : ℚ)
    (tol : ℚ) (mi fuel niter n : ℕ)
    (h : qStopAt P om₀ s₀ tea₀ tol n = false) :
    cpQAux P tol mi (fuel+1) niter (qState P om₀ s₀ tea₀ n).1
        (qState P om₀ s₀ tea₀ n).2.1 (qState P om₀ s₀ tea₀ n).2.2.1
        (qState P om₀ s₀ tea₀ n).2.2.2 (qBestAt P om₀ s₀ tea₀ n)
      = cpQAux P tol mi fuel (niter+1) (qState P om₀ s₀ tea₀ (n+1)).1
        (qState P om₀ s₀ tea₀ (n+1)).2.1 (qState P om₀ s₀ tea₀ (n+1)).2.2.1
        (qState P om₀ s₀ tea₀ (n+1)).2.2.2 (qBestAt P om₀ s₀ tea₀ (n+1)) := by
  rcases hA : P.assess_q (qState P om₀ s₀ tea₀ n).1
      (P.xc (qState P om₀ s₀ tea₀ n).2.1) (qState P om₀ s₀ tea₀ n).2.2.1
      (qState P om₀ s₀ tea₀ n).2.2.2 with ⟨om', rest⟩
  obtain ⟨⟨cut, shrunk, x0, more⟩, tea'⟩ := rest
  rcases hU : P.update (qState P om₀ s₀ tea₀ n).2.1 cut with ⟨s', st⟩
  have hOr : qOracleAt P om₀ s₀ tea₀ n = (om', ((cut, shrunk, x0, more)), tea') :=
    hA
  have hUd : qUpdAt P om₀ s₀ tea₀ n = (s', st) := by
    simp only [qUpdAt, hOr]
    exact hU
  have hst : qStatusAt P om₀ s₀ tea₀ n = st := by
    simp only [qStatusAt, hUd]
  have hma : qMoreAltAt P om₀ s₀ tea₀ n = more := by
    simp only [qMoreAltAt, hOr]
  have hnosoln : st ≠ CutStatus.NoSoln := by
    intro hc
    rw [qStopAt, hst, hc] at h
    simp at h
  have htsq : ¬ P.tsq s' < tol := by
    intro hc
    rw [qStopAt, hUd] at h
    simp [hc] at h
  have hnoeffmore : st = CutStatus.NoEffect → more = true := by
    intro hc
    rw [qStopAt, hst, hma, hc] at h
    cases more with
    | false => simp at h
    | true => rfl
  have hq1 : qState P om₀ s₀ tea₀ (n+1) = (om', s', tea',
      if st = CutStatus.NoEffect ∧ more = true then true
      else (qState P om₀ s₀ tea₀ n).2.2.2) := by
    show qStep P (qState P om₀ s₀ tea₀ n) = _
    rw [qStep]
    simp only [hA, hU]
  have hb1 : qBestAt P om₀ s₀ tea₀ (n+1)
      = if shrunk then some x0 else qBestAt P om₀ s₀ tea₀ n := by
    show (if qShrunkAt P om₀ s₀ tea₀ n then some (qX0At P om₀ s₀ tea₀ n)
      else qBestAt P om₀ s₀ tea₀ n) = _
    simp only [qShrunkAt, qX0At, hOr]
  simp only [cpQAux, hA, hU, hq1, hb1]
  by_cases hne : st = CutStatus.NoEffect
  · have hmore := hnoeffmore hne
    rw [if_pos hne, if_neg (by simp [hmore]), if_neg htsq]
    simp [hne, hmore]
  · rw [if_neg hne, if_neg hnosoln, if_neg htsq]
    have hcond : ¬(st = CutStatus.NoEffect ∧ more = true) := by
      rintro ⟨h1, _⟩; exact hne h1
    simp [hcond]

/-- Advancing the discrete loop `k` iterations, none stopping. -/
lemma cpQAux_advance (P : QSys Ω S C V) (om₀ : Ω) (s₀ : S) (tea₀ : ℚ)
    (tol : ℚ) (mi : ℕ) :
    ∀ (k fuel niter : ℕ),
      (∀ j, j < k → qStopAt P om₀ s₀ tea₀ tol j = false) →
      cpQAux P tol mi (fuel + k) niter om₀ s₀ tea₀ false none
        = cpQAux P tol mi fuel (niter + k) (qState P om₀ s₀ tea₀ k).1
            (qState P om₀ s₀ tea₀ k).2.1 (qState P om₀ s₀ tea₀ k).2.2.1
            (qState P om₀ s₀ tea₀ k).2.2.2 (qBestAt P om₀ s₀ tea₀ k) := by
  intro k
  induction k with
  | zero => intro fuel niter _; rfl
  | succ k ih =>
    intro fuel niter h
    have h1 : fuel + (k + 1) = (fuel + 1) + k := by omega
    rw [h1, ih (fuel + 1) niter (fun j hj => h j (by omega))]
    have h2 := cpQAux_step P om₀ s₀ tea₀ tol mi fuel (niter + k) k
      (h k (by omega))
    rw [h2, Nat.add_assoc]

/-- If iteration `n` stops the discrete loop, the loop returns the
best-so-far record as updated by iteration `n`; the reported iteration
count is `max_iter` on the `break` path (`NoEffect` without alternative)
and the loop counter otherwise. -/
lemma cpQAux_term (P : QSys Ω S C V) (om₀ : Ω) (s₀ : S) (tea₀ : ℚ)
    (tol : ℚ) (mi fuel niter n : ℕ)
    (h : qStopAt P om₀ s₀ tea₀ tol n = true) :
    cpQAux P tol mi (fuel+1) niter (qState P om₀ s₀ tea₀ n).1
        (qState P om₀ s₀ tea₀ n).2.1 (qState P om₀ s₀ tea₀ n).2.2.1
        (qState P om₀ s₀ tea₀ n).2.2.2 (qBestAt P om₀ s₀ tea₀ n)
      = (qBestAt P om₀ s₀ tea₀ (n+1),
          if qStatusAt P om₀ s₀ tea₀ n = CutStatus.NoEffect ∧
              qMoreAltAt P om₀ s₀ tea₀ n = false then mi else niter) := by
  rcases hA : P.assess_q (qState P om₀ s₀ tea₀ n).1
      (P.xc (qState P om₀ s₀ tea₀ n).2.1) (qState P om₀ s₀ tea₀ n).2.2.1
      (qState P om₀ s₀ tea₀ n).2.2.2 with ⟨om', rest⟩
  obtain ⟨⟨cut, shrunk, x0, more⟩, tea'⟩ := rest
  rcases hU : P.update (qState P om₀ s₀ tea₀ n).2.1 cut with ⟨s', st⟩
  have hOr : qOracleAt P om₀ s₀ tea₀ n = (om', ((cut, shrunk, x0, more)), tea') :=
    hA
  have hUd : qUpdAt P om₀ s₀ tea₀ n = (s', st) := by
    simp only [qUpdAt, hOr]
    exact hU
  have hst : qStatusAt P om₀ s₀ tea₀ n = st := by
    simp only [qStatusAt, hUd]
  have hma : qMoreAltAt P om₀ s₀ tea₀ n = more := by
    simp only [qMoreAltAt, hOr]
  have hb1 : qBestAt P om₀ s₀ tea₀ (n+1)
      = if shrunk then some x0 else qBestAt P om₀ s₀ tea₀ n := by
    show (if qShrunkAt P om₀ s₀ tea₀ n then some (qX0At P om₀ s₀ tea₀ n)
      else qBestAt P om₀ s₀ tea₀ n) = _
    simp only [qShrunkAt, qX0At, hOr]
  rw [qStopAt, hst, hma, hUd] at h
  have h' : st = CutStatus.NoSoln ∨ (st = CutStatus.NoEffect ∧ more = false) ∨
      P.tsq s' < tol := by
    simp only [Bool.or_eq_true, decide_eq_true_eq, Bool.and_eq_true,
      Bool.not_eq_true'] at h
    tauto
  simp only [cpQAux, hA, hU, hb1, hst, hma]
  by_cases hne : st = CutStatus.NoEffect
  · by_cases hmore : more = false
    · rw [if_pos hne, if_pos (by simp [hmore])]
      simp [hne, hmore]
    · have hmt : more = true := by
        cases more
        · exact absurd rfl hmore
        · rfl
      have htsq : P.tsq s' < tol := by
        rcases h' with h1 | h2 | h3
        · rw [hne] at h1; exact absurd h1 (by simp)
        · exact absurd h2.2 hmore
        · exact h3
      rw [if_pos hne, if_neg (by simp [hmt]), if_pos htsq]
      simp [hne, hmt]
  · have hrest : st = CutStatus.NoSoln ∨ P.tsq s' < tol := by
      rcases h' with h1 | h2 | h3
      · exact Or.inl h1
      · exact absurd h2.1 hne
      · exact Or.inr h3
    rw [if_neg hne]
    rcases hrest with h1 | h2
    · rw [if_pos h1]
      simp [hne]
    · by_cases h1 : st = CutStatus.NoSoln
      · rw [if_pos h1]
        simp [hne]
      · rw [if_neg h1, if_pos h2]
        simp [hne]

/-- Characterization of `cutting_plane_q` against the straight-line
trace: at the first stopping iteration it returns the updated best-so-far
record, reporting `max_iter` on the `break` path (`NoEffect` without an
alternative cut) and the loop counter otherwise; when no iteration below
the cap stops, it returns `(x_best, max_iter)`. -/
lemma cutting_plane_q_char (P : QSys Ω S C V) (options : Options)
    (om₀ : Ω) (s₀ : S) (tea₀ : ℚ) :
    (∀ k, k < options.max_iter →
      (∀ j, j < k → qStopAt P om₀ s₀ tea₀ options.tol j = false) →
      qStopAt P om₀ s₀ tea₀ options.tol k = true →
      cutting_plane_q P options om₀ s₀ tea₀
        = (qBestAt P om₀ s₀ tea₀ (k+1),
            if qStatusAt P om₀ s₀ tea₀ k = CutStatus.NoEffect ∧
                qMoreAltAt P om₀ s₀ tea₀ k = false
            then options.max_iter else k)) ∧
    ((∀ j, j < options.max_iter →
        qStopAt P om₀ s₀ tea₀ options.tol j = false) →
      cutting_plane_q P options om₀ s₀ tea₀
        = (qBestAt P om₀ s₀ tea₀ options.max_iter, options.max_iter)) := by
  constructor
  · intro k hk hpre hterm
    have hsplit : options.max_iter = (options.max_iter - k - 1 + 1) + k := by
      omega
    have hadv := cpQAux_advance P om₀ s₀ tea₀ options.tol options.max_iter k
      (options.max_iter - k - 1 + 1) 0 hpre
    have hfin := cpQAux_term P om₀ s₀ tea₀ options.tol options.max_iter
      (options.max_iter - k - 1) k k hterm
    have hstart : cutting_plane_q P options om₀ s₀ tea₀
        = cpQAux P options.tol options.max_iter
            ((options.max_iter - k - 1 + 1) + k) 0 om₀ s₀ tea₀ false none := by
      show cpQAux P options.tol options.max_iter options.max_iter 0 om₀ s₀
        tea₀ (decide (CutStatus.NoSoln = CutStatus.NoEffect)) none = _
      rw [show (decide (CutStatus.NoSoln = CutStatus.NoEffect)) = false
        from rfl, ← hsplit]
    rw [hstart, hadv]
    simpa using hfin
  · intro hall
    have hadv := cpQAux_advance P om₀ s₀ tea₀ options.tol options.max_iter
      options.max_iter 0 0 (fun j hj => hall j hj)
    have hstart : cutting_plane_q P options om₀ s₀ tea₀
        = cpQAux P options.tol options.max_iter (0 + options.max_iter) 0
            om₀ s₀ tea₀ false none := by
      show cpQAux P options.tol options.max_iter options.max_iter 0 om₀ s₀
        tea₀ (decide (CutStatus.NoSoln = CutStatus.NoEffect)) none = _
      rw [show (decide (CutStatus.NoSoln = CutStatus.NoEffect)) = false
        from rfl, Nat.zero_add]
    rw [hstart, hadv]
    simp [cpQAux]

/-- **C3.** In `cutting_plane_q`, the retry flag passed to the oracle's
first call is false, and becomes true only after `space.update` returns
`NoEffect` with `more_alt` true; when the update returns `NoEffect` with
`more_alt` false the driver stops iterating (leaving the loop by `break`,
so the reported count is `max_iter`); when the update returns `NoSoln`
the driver terminates returning `(x_best, niter)`; and `x_best` is set to
the oracle's rounded lattice point `x0` at every iteration where `shrunk`
is true. -/
theorem cutting_plane_q_spec (P : QSys Ω S C V) (options : Options)
    (om₀ : Ω) (s₀ : S) (tea₀ : ℚ) :
    qRetryAt P om₀ s₀ tea₀ 0 = false ∧
    (∀ n, qRetryAt P om₀ s₀ tea₀ (n+1)
        = (if qStatusAt P om₀ s₀ tea₀ n = CutStatus.NoEffect ∧
              qMoreAltAt P om₀ s₀ tea₀ n = true
           then true else qRetryAt P om₀ s₀ tea₀ n)) ∧
    (∀ n, qBestAt P om₀ s₀ tea₀ (n+1)
        = (if qShrunkAt P om₀ s₀ tea₀ n then some (qX0At P om₀ s₀ tea₀ n)
           else qBestAt P om₀ s₀ tea₀ n)) ∧
    (∀ k, k < options.max_iter →
      (∀ j, j < k → qStopAt P om₀ s₀ tea₀ options.tol j = false) →
      qStatusAt P om₀ s₀ tea₀ k = CutStatus.NoSoln →
      cutting_plane_q P options om₀ s₀ tea₀
        = (qBestAt P om₀ s₀ tea₀ (k+1), k)) ∧
    (∀ k, k < options.max_iter →
      (∀ j, j < k → qStopAt P om₀ s₀ tea₀ options.tol j = false) →
      qStatusAt P om₀ s₀ tea₀ k = CutStatus.NoEffect →
      qMoreAltAt P om₀ s₀ tea₀ k = false →
      cutting_plane_q P options om₀ s₀ tea₀
        = (qBestAt P om₀ s₀ tea₀ (k+1), options.max_iter)) := by
  refine ⟨rfl, fun n => rfl, fun n => rfl, ?_, ?_⟩
  · intro k hk hpre hst
    have hstop : qStopAt P om₀ s₀ tea₀ options.tol k = true := by
      simp [qStopAt, hst]
    have := (cutting_plane_q_char P options om₀ s₀ tea₀).1 k hk hpre hstop
    rw [this, if_neg (by rintro ⟨h1, _⟩; rw [hst] at h1; cases h1)]
  · intro k hk hpre hst hma
    have hstop : qStopAt P om₀ s₀ tea₀ options.tol k = true := by
      simp [qStopAt, hst, hma]
    have := (cutting_plane_q_char P options om₀ s₀ tea₀).1 k hk hpre hstop
    rw [this, if_pos ⟨hst, hma⟩]

/-- Update status of the feasibility loop at iteration `n`: `none` when
the oracle reported feasibility (no update happens), otherwise the
`CutStatus` returned by `space.update`. -/
def feasStatusAt (P : FeasSys Ω S C V) (om₀ : Ω) (s₀ : S) (n : ℕ) :
    Option CutStatus :=
  match feasOracleAt P om₀ s₀ n with
  | (_, none) => none
  | (_, some cut) => some (P.update (feasState P om₀ s₀ n).2 cut).2

/-- **C10.** An update status of `SmallEnough` does not terminate the
`cutting_plane_q` loop: the discrete driver keeps iterating after a
`SmallEnough` update (the reported iteration count exceeds that
iteration), stopping only on `NoSoln`, on `NoEffect` with `more_alt`
false, on `tsq() < tol`, or at the `max_iter` cap; by contrast,
`cutting_plane_feas` and `cutting_plane_optim` return at the first
iteration whose update status differs from `Success`, in particular at a
`SmallEnough` update. -/
theorem small_enough_not_terminating
    (P : QSys Ω S C V) (options : Options) (om₀ : Ω) (s₀ : S) (tea₀ : ℚ)
    (F : FeasSys Ωf Sf Cf Vf) (omf : Ωf) (sf : Sf)
    (O : OptimSys Ωo So Co Vo) (omo : Ωo) (so : So) (teao : ℚ) :
    (∀ n, n < options.max_iter →
      (∀ j, j ≤ n → qStopAt P om₀ s₀ tea₀ options.tol j = false) →
      qStatusAt P om₀ s₀ tea₀ n = CutStatus.SmallEnough →
      n + 1 ≤ (cutting_plane_q P options om₀ s₀ tea₀).2) ∧
    (∀ n, n < options.max_iter →
      (∀ j, j < n → feasTermAt F omf sf options.tol j = false) →
      feasStatusAt F omf sf n = some CutStatus.SmallEnough →
      (cutting_plane_feas F options omf sf).num_iters = n ∧
      (cutting_plane_feas F options omf sf).feasible = false) ∧
    (∀ n, n < options.max_iter →
      (∀ j, j < n → optimTermAt O omo so teao options.tol j = false) →
      (optimUpdAt O omo so teao n).2 = CutStatus.SmallEnough →
      (cutting_plane_optim O options omo so teao).2 = n) := by
  refine ⟨?_, ?_, ?_⟩
  · intro n hn hpre _
    by_cases hex : ∃ k, qStopAt P om₀ s₀ tea₀ options.tol k = true
    · have hk₀ : qStopAt P om₀ s₀ tea₀ options.tol (Nat.find hex) = true :=
        Nat.find_spec hex
      have hmin : ∀ j, j < Nat.find hex →
          qStopAt P om₀ s₀ tea₀ options.tol j = false := by
        intro j hj
        have hnot := Nat.find_min hex hj
        cases hq : qStopAt P om₀ s₀ tea₀ options.tol j
        · rfl
        · exact absurd hq hnot
      have hngt : n < Nat.find hex := by
        by_contra hc
        push_neg at hc
        have := hpre (Nat.find hex) hc
        rw [this] at hk₀
        cases hk₀
      by_cases hklt : Nat.find hex < options.max_iter
      · have hchar := (cutting_plane_q_char P options om₀ s₀ tea₀).1
          (Nat.find hex) hklt hmin hk₀
        rw [hchar]
        by_cases hcond : qStatusAt P om₀ s₀ tea₀ (Nat.find hex)
              = CutStatus.NoEffect ∧
            qMoreAltAt P om₀ s₀ tea₀ (Nat.find hex) = false
        · rw [if_pos hcond]
          omega
        · rw [if_neg hcond]
          omega
      · have hchar := (cutting_plane_q_char P options om₀ s₀ tea₀).2
          (fun j hj => hmin j (by omega))
        rw [hchar]
        omega
    · have hchar := (cutting_plane_q_char P options om₀ s₀ tea₀).2 (by
        intro j _
        cases hq : qStopAt P om₀ s₀ tea₀ options.tol j
        · rfl
        · exact absurd ⟨j, hq⟩ hex)
      rw [hchar]
      omega
  · intro n hn hpre hst
    have hdone : feasDoneAt F omf sf n = false := by
      rw [feasStatusAt] at hst
      rw [feasDoneAt]
      rcases ho : feasOracleAt F omf sf n with ⟨om', oc⟩
      cases oc
      · rw [ho] at hst; cases hst
      · simp
    have hterm : feasTermAt F omf sf options.tol n = true := by
      rw [feasTermAt, hdone, Bool.false_or, feasCutStopAt]
      rw [feasStatusAt] at hst
      rcases ho : feasOracleAt F omf sf n with ⟨om', oc⟩
      cases oc with
      | none => rw [ho] at hst; cases hst
      | some cut =>
        rw [ho] at hst
        have : (F.update (feasState F omf sf n).2 cut).2
            = CutStatus.SmallEnough := by
          injection hst
        simp [this]
    have := (cutting_plane_feas_char F options omf sf).1 n hn hpre hterm
    exact ⟨this.1, by rw [this.2, hdone]⟩
  · intro n hn hpre hst
    have hterm : optimTermAt O omo so teao options.tol n = true := by
      rw [optimTermAt]
      simp [hst]
    have := (cutting_plane_optim_char O options omo so teao).1 n hn hpre hterm
    rw [this]

/-! ## `bsearch` -/

/-- Modelled from the spec: `algo::half_nonnegative` (header
`half_nonnegative.hpp`, not among the sources) halves a nonnegative
scalar; the spec describes the midpoint as `lower + (upper − lower)/2`
and the stopping test as `(upper − lower)/2 < tol`.  Over `ℚ` it is exact
division by two. -/
def half_nonnegative (x : ℚ) : ℚ := x / 2

/-- Interface consumed by `bsearch`: `assess_bs(γ)` may mutate the
oracle and reports whether the inner problem with target `γ` is
feasible. -/
structure BsOracle (Ω : Type) where
  assess_bs : Ω → ℚ → Ω × Bool

/-- Result of `bsearch`: the mutated oracle and interval (the C++
mutates `intvl` by reference) plus the C++ `CInfo` fields. -/
structure BsResult (Ω : Type) where
  omega : Ω
  lower : ℚ
  upper : ℚ
  feasible : Bool
  num_iters : ℕ

/-- Loop body of `bsearch`.  `u_orig` is the initial upper bound; the
reported `feasible` flag is `upper != u_orig`. -/
def bsearchAux (O : BsOracle Ω) (tol : ℚ) (u_orig : ℚ) :
    ℕ → ℕ → Ω → ℚ → ℚ → BsResult Ω
  | 0, niter, om, lo, hi => ⟨om, lo, hi, decide (hi ≠ u_orig), niter⟩
  | fuel+1, niter, om, lo, hi =>
    let tau := half_nonnegative (hi - lo)
    if tau < tol then ⟨om, lo, hi, decide (hi ≠ u_orig), niter⟩
    else
      let tea := lo + tau
      let r := O.assess_bs om tea
      if r.2 then bsearchAux O tol u_orig fuel (niter+1) r.1 lo tea
      else bsearchAux O tol u_orig fuel (niter+1) r.1 tea hi

/-- `bsearch` (from `cutting_plane.hpp`): one-dimensional search over the
interval `intvl = (lower, upper)`. -/
def bsearch (O : BsOracle Ω) (options : Options) (om : Ω)
    (intvl : ℚ × ℚ) : BsResult Ω :=
  bsearchAux O options.tol intvl.2 options.max_iter 0 om intvl.1 intvl.2

/-- The midpoint evaluated at state `(om, lo, hi)`. -/
def bsMid (st : Ω × ℚ × ℚ) : ℚ :=
  st.2.1 + half_nonnegative (st.2.2 - st.2.1)

/-- One iteration of the bisection loop, ignoring the stopping test:
evaluate the midpoint; on feasible shrink the upper bound to it,
otherwise raise the lower bound to it. -/
def bsStep (O : BsOracle Ω) (st : Ω × ℚ × ℚ) : Ω × ℚ × ℚ :=
  let r := O.assess_bs st.1 (bsMid st)
  if r.2 then (r.1, st.2.1, bsMid st) else (r.1, bsMid st, st.2.2)

/-- State (oracle, lower, upper) at the start of iteration `n`. -/
def bsState (O : BsOracle Ω) (om₀ : Ω) (lo₀ hi₀ : ℚ) : ℕ → Ω × ℚ × ℚ
  | 0 => (om₀, lo₀, hi₀)
  | n+1 => bsStep O (bsState O om₀ lo₀ hi₀ n)

/-- The oracle's feasibility verdict at iteration `n`. -/
def bsFeasAt (O : BsOracle Ω) (om₀ : Ω) (lo₀ hi₀ : ℚ) (n : ℕ) : Bool :=
  (O.assess_bs (bsState O om₀ lo₀ hi₀ n).1
    (bsMid (bsState O om₀ lo₀ hi₀ n))).2

/-- Iteration `n` stops the loop: half the interval width is below
`tol`. -/
def bsStopAt (O : BsOracle Ω) (om₀ : Ω) (lo₀ hi₀ : ℚ) (tol : ℚ)
    (n : ℕ) : Bool :=
  decide (half_nonnegative ((bsState O om₀ lo₀ hi₀ n).2.2
    - (bsState O om₀ lo₀ hi₀ n).2.1) < tol)

/-- If iteration `n` does not stop, the loop advances the state. -/
lemma bsearchAux_step (O : BsOracle Ω) (om₀ : Ω) (lo₀ hi₀ : ℚ)
    (tol u_orig : ℚ) (fuel niter n : ℕ)
    (h : bsStopAt O om₀ lo₀ hi₀ tol n = false) :
    bsearchAux O tol u_orig (fuel+1) niter (bsState O om₀ lo₀ hi₀ n).1
        (bsState O om₀ lo₀ hi₀ n).2.1 (bsState O om₀ lo₀ hi₀ n).2.2
      = bsearchAux O tol u_orig fuel (niter+1) (bsState O om₀ lo₀ hi₀ (n+1)).1
        (bsState O om₀ lo₀ hi₀ (n+1)).2.1 (bsState O om₀ lo₀ hi₀ (n+1)).2.2 := by
  simp only [bsStopAt, decide_eq_false_iff_not] at h
  have hs : bsState O om₀ lo₀ hi₀ (n+1) = bsStep O (bsState O om₀ lo₀ hi₀ n) :=
    rfl
  simp only [bsearchAux]
  rw [if_neg h]
  rw [hs, bsStep, bsMid]
  cases hf : (O.assess_bs (bsState O om₀ lo₀ hi₀ n).1
      ((bsState O om₀ lo₀ hi₀ n).2.1 + half_nonnegative
        ((bsState O om₀ lo₀ hi₀ n).2.2 - (bsState O om₀ lo₀ hi₀ n).2.1))) with
  | mk om' f =>
    cases f
    · simp
    · simp

/-- Advancing the bisection loop `k` iterations, none stopping. -/
lemma bsearchAux_advance (O : BsOracle Ω) (om₀ : Ω) (lo₀ hi₀ : ℚ)
    (tol u_orig : ℚ) :
    ∀ (k fuel niter : ℕ),
      (∀ j, j < k → bsStopAt O om₀ lo₀ hi₀ tol j = false) →
      bsearchAux O tol u_orig (fuel + k) niter om₀ lo₀ hi₀
        = bsearchAux O tol u_orig fuel (niter + k)
            (bsState O om₀ lo₀ hi₀ k).1 (bsState O om₀ lo₀ hi₀ k).2.1
            (bsState O om₀ lo₀ hi₀ k).2.2 := by
  intro k
  induction k with
  | zero => intro fuel niter _; rfl
  | succ k ih =>
    intro fuel niter h
    have h1 : fuel + (k + 1) = (fuel + 1) + k := by omega
    rw [h1, ih (fuel + 1) niter (fun j hj => h j (by omega))]
    have h2 := bsearchAux_step O om₀ lo₀ hi₀ tol u_orig fuel (niter + k) k
      (h k (by omega))
    rw [h2, Nat.add_assoc]

/-- If iteration `n` stops, the loop returns the current interval with
counter `niter`. -/
lemma bsearchAux_term (O : BsOracle Ω) (om₀ : Ω) (lo₀ hi₀ : ℚ)
    (tol u_orig : ℚ) (fuel niter n : ℕ)
    (h : bsStopAt O om₀ lo₀ hi₀ tol n = true) :
    bsearchAux O tol u_orig (fuel+1) niter (bsState O om₀ lo₀ hi₀ n).1
        (bsState O om₀ lo₀ hi₀ n).2.1 (bsState O om₀ lo₀ hi₀ n).2.2
      = ⟨(bsState O om₀ lo₀ hi₀ n).1, (bsState O om₀ lo₀ hi₀ n).2.1,
          (bsState O om₀ lo₀ hi₀ n).2.2,
          decide ((bsState O om₀ lo₀ hi₀ n).2.2 ≠ u_orig), niter⟩ := by
  simp only [bsStopAt, decide_eq_true_eq] at h
  simp only [bsearchAux]
  rw [if_pos h]

/-- Characterization of `bsearch` against the straight-line trace. -/
lemma bsearch_char (O : BsOracle Ω) (options : Options) (om₀ : Ω)
    (lo₀ hi₀ : ℚ) :
    (∀ k, k < options.max_iter →
      (∀ j, j < k → bsStopAt O om₀ lo₀ hi₀ options.tol j = false) →
      bsStopAt O om₀ lo₀ hi₀ options.tol k = true →
      bsearch O options om₀ (lo₀, hi₀)
        = ⟨(bsState O om₀ lo₀ hi₀ k).1, (bsState O om₀ lo₀ hi₀ k).2.1,
            (bsState O om₀ lo₀ hi₀ k).2.2,
            decide ((bsState O om₀ lo₀ hi₀ k).2.2 ≠ hi₀), k⟩) ∧
    ((∀ j, j < options.max_iter →
        bsStopAt O om₀ lo₀ hi₀ options.tol j = false) →
      bsearch O options om₀ (lo₀, hi₀)
        = ⟨(bsState O om₀ lo₀ hi₀ options.max_iter).1,
            (bsState O om₀ lo₀ hi₀ options.max_iter).2.1,
            (bsState O om₀ lo₀ hi₀ options.max_iter).2.2,
            decide ((bsState O om₀ lo₀ hi₀ options.max_iter).2.2 ≠ hi₀),
            options.max_iter⟩) := by
  constructor
  · intro k hk hpre hterm
    have hsplit : options.max_iter = (options.max_iter - k - 1 + 1) + k := by
      omega
    have hadv := bsearchAux_advance O om₀ lo₀ hi₀ options.tol hi₀ k
      (options.max_iter - k - 1 + 1) 0 hpre
    have hfin := bsearchAux_term O om₀ lo₀ hi₀ options.tol hi₀
      (options.max_iter - k - 1) k k hterm
    unfold bsearch
    rw [show (lo₀, hi₀).2 = hi₀ from rfl, show (lo₀, hi₀).1 = lo₀ from rfl]
    conv_lhs => rw [hsplit]
    rw [hadv]
    simpa using hfin
  · intro hall
    have hadv := bsearchAux_advance O om₀ lo₀ hi₀ options.tol hi₀
      options.max_iter 0 0 (fun j hj => hall j hj)
    unfold bsearch
    rw [show (lo₀, hi₀).2 = hi₀ from rfl, show (lo₀, hi₀).1 = lo₀ from rfl]
    conv_lhs => rw [show options.max_iter = 0 + options.max_iter by omega]
    rw [hadv]
    simp [bsearchAux]

/-- **C8.** For every interval with `lower ≤ upper`, `bsearch` at each
iteration evaluates the midpoint `lower + (upper − lower)/2`, assigns it
to `upper` when `assess_bs` reports feasible and to `lower` otherwise
(captured by `bsStep`/`bsState`), and returns only when
`(upper − lower)/2 < tol` or after `max_iter` iterations; hence at return
either `upper − lower < 2·tol` or `niter = max_iter`. -/
theorem bsearch_spec (O : BsOracle Ω) (options : Options) (om₀ : Ω)
    (lo₀ hi₀ : ℚ) (hle : lo₀ ≤ hi₀) :
    (∀ n, bsState O om₀ lo₀ hi₀ (n+1)
        = (if bsFeasAt O om₀ lo₀ hi₀ n
           then ((O.assess_bs (bsState O om₀ lo₀ hi₀ n).1
                   (bsMid (bsState O om₀ lo₀ hi₀ n))).1,
                 (bsState O om₀ lo₀ hi₀ n).2.1,
                 bsMid (bsState O om₀ lo₀ hi₀ n))
           else ((O.assess_bs (bsState O om₀ lo₀ hi₀ n).1
                   (bsMid (bsState O om₀ lo₀ hi₀ n))).1,
                 bsMid (bsState O om₀ lo₀ hi₀ n),
                 (bsState O om₀ lo₀ hi₀ n).2.2))) ∧
    (∀ k, k < options.max_iter →
      (∀ j, j < k → bsStopAt O om₀ lo₀ hi₀ options.tol j = false) →
      bsStopAt O om₀ lo₀ hi₀ options.tol k = true →
      (bsearch O options om₀ (lo₀, hi₀)).num_iters = k ∧
      (bsearch O options om₀ (lo₀, hi₀)).lower
        = (bsState O om₀ lo₀ hi₀ k).2.1 ∧
      (bsearch O options om₀ (lo₀, hi₀)).upper
        = (bsState O om₀ lo₀ hi₀ k).2.2) ∧
    ((bsearch O options om₀ (lo₀, hi₀)).upper
        - (bsearch O options om₀ (lo₀, hi₀)).lower < 2 * options.tol ∨
      (bsearch O options om₀ (lo₀, hi₀)).num_iters = options.max_iter) := by
  refine ⟨?_, ?_, ?_⟩
  · intro n
    show bsStep O (bsState O om₀ lo₀ hi₀ n) = _
    rw [bsStep]
    by_cases hf : bsFeasAt O om₀ lo₀ hi₀ n
    · rw [if_pos hf]
      rw [if_pos (by rw [bsFeasAt] at hf; exact hf)]
    · rw [if_neg hf]
      rw [if_neg (by rw [bsFeasAt] at hf; exact hf)]
  · intro k hk hpre hterm
    have := (bsearch_char O options om₀ lo₀ hi₀).1 k hk hpre hterm
    rw [this]
    exact ⟨rfl, rfl, rfl⟩
  · by_cases hex : ∃ k, bsStopAt O om₀ lo₀ hi₀ options.tol k = true
    · obtain ⟨k₀, hk₀, hmin⟩ : ∃ k₀,
          bsStopAt O om₀ lo₀ hi₀ options.tol k₀ = true ∧
          ∀ j, j < k₀ → bsStopAt O om₀ lo₀ hi₀ options.tol j = false := by
        refine ⟨Nat.find hex, Nat.find_spec hex, ?_⟩
        intro j hj
        have hnot := Nat.find_min hex hj
        cases hq : bsStopAt O om₀ lo₀ hi₀ options.tol j
        · rfl
        · exact absurd hq hnot
      by_cases hklt : k₀ < options.max_iter
      · have hchar := (bsearch_char O options om₀ lo₀ hi₀).1 k₀ hklt hmin hk₀
        left
        rw [hchar]
        simp only [bsStopAt, decide_eq_true_eq, half_nonnegative] at hk₀
        have h2 : (0:ℚ) < 2 := by norm_num
        rw [div_lt_iff₀ h2] at hk₀
        show (bsState O om₀ lo₀ hi₀ k₀).2.2
          - (bsState O om₀ lo₀ hi₀ k₀).2.1 < 2 * options.tol
        linarith
      · have hchar := (bsearch_char O options om₀ lo₀ hi₀).2
          (fun j hj => hmin j (by omega))
        right
        rw [hchar]
    · have hchar := (bsearch_char O options om₀ lo₀ hi₀).2 (by
        intro j _
        cases hq : bsStopAt O om₀ lo₀ hi₀ options.tol j
        · rfl
        · exact absurd ⟨j, hq⟩ hex)
      right
      rw [hchar]

/-! ## `bsearch_adaptor::assess_bs`

The space contract (`xc()`, `set_xc`, `tsq()`, `update`, `copy()`) is
embedded over a state record with an explicit `center` field and an
opaque `rest` field holding every other component of the space; `xc`
reads the center, `set_xc` overwrites exactly the center, `copy` is the
value copy. -/

/-- A search-space state: the center plus all remaining components. -/
structure EllState (V R : Type) where
  center : V
  rest : R

/-- The space operations of the contract that the adaptor forwards. -/
structure SpaceOps (V R C : Type) where
  update : EllState V R → C → EllState V R × CutStatus
  tsq : EllState V R → ℚ

/-- Oracle interface used by the adaptor: `update(tea)` installs the new
target, `assess_feas` is the separation oracle. -/
structure FeasOracle (Ω C V : Type) where
  update : Ω → ℚ → Ω
  assess_feas : Ω → V → Ω × Option C

/-- Bundle an adaptor oracle and the space operations into the interface
consumed by `cutting_plane_feas`. -/
def toFeasSys (O : FeasOracle Ω C V) (Sp : SpaceOps V R C) :
    FeasSys Ω (EllState V R) C V where
  assess_feas := O.assess_feas
  xc := fun s => s.center
  update := Sp.update
  tsq := Sp.tsq

/-- `bsearch_adaptor::assess_bs` (from `cutting_plane.hpp`): copy the
wrapped space, install the target in the oracle, run
`cutting_plane_feas` on the copy, and on feasibility write the copy's
center back into the outer space via `set_xc`. -/
def bsearch_adaptor_assess_bs (O : FeasOracle Ω C V) (Sp : SpaceOps V R C)
    (options : Options) (om : Ω) (outer : EllState V R) (tea : ℚ) :
    Ω × EllState V R × Bool :=
  let space := outer
  let om1 := O.update om tea
  let info := cutting_plane_feas (toFeasSys O Sp) options om1 space
  if info.feasible then
    (info.omega, { outer with center := info.space.center }, true)
  else (info.omega, outer, false)

/-- **C9.** `bsearch_adaptor::assess_bs` runs `cutting_plane_feas` on a
copy of the wrapped space; when the inner problem is reported feasible it
overwrites only the outer space's center with the copy's center via
`set_xc` and returns true; when infeasible it returns false and the outer
space is left entirely unchanged; in both cases every part of the outer
space other than the center (`rest`) is unchanged. -/
theorem bsearch_adaptor_assess_bs_spec (O : FeasOracle Ω C V)
    (Sp : SpaceOps V R C) (options : Options) (om : Ω)
    (outer : EllState V R) (tea : ℚ) :
    (bsearch_adaptor_assess_bs O Sp options om outer tea).2.2
      = (cutting_plane_feas (toFeasSys O Sp) options (O.update om tea)
          outer).feasible ∧
    (bsearch_adaptor_assess_bs O Sp options om outer tea).2.1.rest
      = outer.rest ∧
    ((cutting_plane_feas (toFeasSys O Sp) options (O.update om tea)
        outer).feasible = true →
      (bsearch_adaptor_assess_bs O Sp options om outer tea).2.1.center
        = (cutting_plane_feas (toFeasSys O Sp) options (O.update om tea)
            outer).space.center) ∧
    ((cutting_plane_feas (toFeasSys O Sp) options (O.update om tea)
        outer).feasible = false →
      (bsearch_adaptor_assess_bs O Sp options om outer tea).2.1 = outer) := by
  by_cases hf : (cutting_plane_feas (toFeasSys O Sp) options
      (O.update om tea) outer).feasible
  · refine ⟨?_, ?_, ?_, ?_⟩ <;>
      simp [bsearch_adaptor_assess_bs, hf]
  · have hf' : (cutting_plane_feas (toFeasSys O Sp) options
        (O.update om tea) outer).feasible = false := by
      cases hq : (cutting_plane_feas (toFeasSys O Sp) options
          (O.update om tea) outer).feasible
      · rfl
      · exact absurd hq hf
    refine ⟨?_, ?_, ?_, ?_⟩ <;>
      simp [bsearch_adaptor_assess_bs, hf']

/-! ## The LDLT manager (`ldlt_mgr.cpp`)

The manager's workspace `T` is an `n × n` matrix storing, for a processed
row `i`: the intermediate column values `T(j, i)` (upper part), the unit
lower-triangular factors `T(i, j)` (lower part), and the diagonal `D` at
`T(i, i)`.  We embed `T` as a function `ℕ → ℕ → ℚ` updated pointwise,
and the element accessor `get` likewise. -/

/-- Pointwise update of a matrix workspace. -/
def fset (f : ℕ → ℕ → ℚ) (i j : ℕ) (v : ℚ) : ℕ → ℕ → ℚ :=
  fun a b => if a = i ∧ b = j then v else f a b

/-- One pass of the inner `j`-loop of `LDLTMgr::factor`: store the
column value at `T(j, i)`, the factor at `T(i, j)`, and recompute `d`
for column `j+1`. -/
def rowStep (get : ℕ → ℕ → ℚ) (s i j : ℕ)
    (Td : (ℕ → ℕ → ℚ) × ℚ) : (ℕ → ℕ → ℚ) × ℚ :=
  let T1 := fset Td.1 j i Td.2
  let T2 := fset T1 i j (Td.2 / T1 j j)
  (T2, get i (j+1) - (Finset.Ico s (j+1)).sum (fun k => T2 i k * T2 k (j+1)))

/-- The inner `j`-loop of `LDLTMgr::factor`, running `cnt` iterations
starting at column `j`. -/
def rowLoop (get : ℕ → ℕ → ℚ) (s i : ℕ) :
    ℕ → ℕ → (ℕ → ℕ → ℚ) × ℚ → (ℕ → ℕ → ℚ) × ℚ
  | 0, _, Td => Td
  | cnt+1, j, Td => rowLoop get s i cnt (j+1) (rowStep get s i j Td)

/-- The outer row loop of `LDLTMgr::factor` with fixed `start = s`:
process rows `i, i+1, …`; on a non-positive diagonal record
`stop = i+1` and return immediately.  Returns the final workspace and
the recorded `stop` (0 = success). -/
def factorGo (get : ℕ → ℕ → ℚ) (s : ℕ) :
    ℕ → ℕ → (ℕ → ℕ → ℚ) → (ℕ → ℕ → ℚ) × ℕ
  | 0, _, T => (T, 0)
  | fuel+1, i, T =>
    let Td := rowLoop get s i (i - s) s (T, get i s)
    let T2 := fset Td.1 i i Td.2
    if Td.2 ≤ 0 then (T2, i+1)
    else factorGo get s fuel (i+1) T2

/-- The LDLT manager state: workspace and the recorded pivot range
`p = (start, stop)`. -/
structure LDLTMgr where
  T : ℕ → ℕ → ℚ
  start : ℕ
  stop : ℕ

/-- Modelled from the spec: `is_spd()` (declared in the missing header
`ldlt_mgr.hpp`) reports whether the factorization succeeded, i.e. no
failure index was recorded — `factor` sets `p = (0, 0)` on entry and
records `stop = i+1 > 0` exactly on failure. -/
def LDLTMgr.is_spd (m : LDLTMgr) : Bool := decide (m.stop = 0)

/-- `LDLTMgr::factor(get)` over an `n × n` accessor, starting from the
workspace `T₀` (the manager's `T` member before the call). -/
def LDLTMgr.factor (n : ℕ) (get : ℕ → ℕ → ℚ) (T₀ : ℕ → ℕ → ℚ) :
    LDLTMgr × Bool :=
  let r := factorGo get 0 n 0 T₀
  let m : LDLTMgr := ⟨r.1, 0, r.2⟩
  (m, m.is_spd)

/-- The outer row loop of `LDLTMgr::factor_with_allow_semidefinte`:
a strictly negative diagonal records `stop = i+1` and fails; a zero
diagonal advances `start` to `i+1` and continues. -/
def factorSemiGo (get : ℕ → ℕ → ℚ) :
    ℕ → ℕ → ℕ → (ℕ → ℕ → ℚ) → (ℕ → ℕ → ℚ) × ℕ × ℕ
  | 0, _, s, T => (T, s, 0)
  | fuel+1, i, s, T =>
    let Td := rowLoop get s i (i - s) s (T, get i s)
    let T2 := fset Td.1 i i Td.2
    if Td.2 < 0 then (T2, s, i+1)
    else if Td.2 = 0 then factorSemiGo get fuel (i+1) (i+1) T2
    else factorSemiGo get fuel (i+1) s T2

/-- `LDLTMgr::factor_with_allow_semidefinte(get)`. -/
def LDLTMgr.factor_with_allow_semidefinte (n : ℕ) (get : ℕ → ℕ → ℚ)
    (T₀ : ℕ → ℕ → ℚ) : LDLTMgr × Bool :=
  let r := factorSemiGo get n 0 0 T₀
  let m : LDLTMgr := ⟨r.1, r.2.1, r.2.2⟩
  (m, m.is_spd)

/-- Pointwise update of a vector. -/
def vset (v : ℕ → ℚ) (i : ℕ) (x : ℚ) : ℕ → ℚ :=
  fun a => if a = i then x else v a

/-- The loop of `LDLTMgr::witness`: for `i` from `m` down to `start+1`,
set `v[i−1] = −Σ_{k ∈ [i, stop)} T(k, i−1) · v[k]`. -/
def witnessGo (T : ℕ → ℕ → ℚ) (nstop : ℕ) :
    ℕ → ℕ → (ℕ → ℚ) → (ℕ → ℚ)
  | 0, _, v => v
  | cnt+1, i, v =>
    witnessGo T nstop cnt (i-1)
      (vset v (i-1) (-(Finset.Ico i nstop).sum (fun k => T k (i-1) * v k)))

/-- `LDLTMgr::witness()` applied to the manager state `m`, with `v₀` the
manager's `witness_vec` member before the call (zero-initialized at
construction).  Returns the witness vector and `−T(stop−1, stop−1)`. -/
def LDLTMgr.witness (m : LDLTMgr) (v₀ : ℕ → ℚ) : (ℕ → ℚ) × ℚ :=
  let s := m.start
  let nstop := m.stop
  let mm := nstop - 1
  let v1 := vset v₀ mm 1
  (witnessGo m.T nstop (mm - s) mm v1, -(m.T mm mm))

/-- `sym_quad`-style full quadratic form `vᵀ A v` of the matrix described
by the accessor `get` over indices `[0, n)`. -/
def quadForm (get : ℕ → ℕ → ℚ) (v : ℕ → ℚ) (n : ℕ) : ℚ :=
  (Finset.range n).sum fun i => (Finset.range n).sum fun j =>
    v i * get i j * v j

/-! ### Exact left-looking LDLT recurrences

`ldltC get s j i` is the value the manager stores at `T(j, i)` when
processing row `i` with current `start = s`: the partially reduced
column entry
`c(j, i) = A(i, j) − Σ_{k ∈ [s, j)} c(k, i)·c(k, j)/c(k, k)`.
The diagonal is `D(i) = c(i, i)`; the unit-triangular factor is
`L(i, j) = c(j, i)/c(j, j)`.  The recursion is on the first index, so we
build the table of rows structurally. -/

/-- Structural table: `ldltCTab get s m j i` equals `c(j, i)` for every
`j < m` (and `0` for `j ≥ m`). -/
def ldltCTab (get : ℕ → ℕ → ℚ) (s : ℕ) : ℕ → ℕ → ℕ → ℚ
  | 0 => fun _ _ => 0
  | m+1 => fun j i =>
    if j = m then
      get i j - (Finset.Ico s j).sum (fun k =>
        ldltCTab get s m k i * ldltCTab get s m k j / ldltCTab get s m k k)
    else ldltCTab get s m j i

/-- The exact column value `c(j, i)` for start `s`. -/
def ldltC (get : ℕ → ℕ → ℚ) (s j i : ℕ) : ℚ :=
  ldltCTab get s (j+1) j i

/-- The exact diagonal `D(i)` for start `s`. -/
def ldltD (get : ℕ → ℕ → ℚ) (s i : ℕ) : ℚ :=
  ldltC get s i i

/-- The exact unit-lower-triangular factor `L(i, j)` for start `s`. -/
def ldltL (get : ℕ → ℕ → ℚ) (s i j : ℕ) : ℚ :=
  ldltC get s j i / ldltC get s j j

/-- Table stability: rows below `j` do not change as the table grows. -/
lemma ldltCTab_stable (get : ℕ → ℕ → ℚ) (s : ℕ) :
    ∀ m m' j i, j < m → m ≤ m' → ldltCTab get s m' j i = ldltCTab get s m j i := by
  intro m m' j i hj hm
  induction m' with
  | zero => omega
  | succ m' ih =>
    rcases Nat.lt_or_ge j m' with h | h
    · rcases Nat.eq_or_lt_of_le hm with he | hlt
      · rw [he]
      · simp only [ldltCTab]
        rw [if_neg (by omega), ih (by omega)]
    · have hmm : m = m' + 1 := by omega
      rw [hmm]

/-- Unfolding equation for `ldltC`. -/
lemma ldltC_eq (get : ℕ → ℕ → ℚ) (s j i : ℕ) :
    ldltC get s j i = get i j - (Finset.Ico s j).sum (fun k =>
      ldltC get s k i * ldltC get s k j / ldltC get s k k) := by
  show ldltCTab get s (j+1) j i = _
  simp only [ldltCTab, if_true]
  congr 1
  apply Finset.sum_congr rfl
  intro k hk
  have hkj : k < j := (Finset.mem_Ico.mp hk).2
  rw [ldltC, ldltC, ldltC,
    ldltCTab_stable get s (k+1) j k i (by omega) (by omega),
    ldltCTab_stable get s (k+1) j k j (by omega) (by omega),
    ldltCTab_stable get s (k+1) j k k (by omega) (by omega)]

/-- The workspace invariant after processing rows `[s, r)` with start
`s`: diagonals hold `D`, the upper part the column values `c`, and the
lower part the factors `L`. -/
def ldltInv (get : ℕ → ℕ → ℚ) (s r : ℕ) (T : ℕ → ℕ → ℚ) : Prop :=
  (∀ j, s ≤ j → j < r → T j j = ldltD get s j) ∧
  (∀ j i, s ≤ j → j < i → i < r →
    T j i = ldltC get s j i ∧ T i j = ldltL get s i j)

lemma fset_self (f : ℕ → ℕ → ℚ) (i j : ℕ) (v : ℚ) : fset f i j v i j = v := by
  simp [fset]

lemma fset_other (f : ℕ → ℕ → ℚ) (i j : ℕ) (v : ℚ) (a b : ℕ)
    (h : ¬(a = i ∧ b = j)) : fset f i j v a b = f a b := by
  simp only [fset, if_neg h]

/-- Correctness of the inner row loop: started at column `j` with the
exact column value `c(j, i)`, under the workspace invariant for rows
`< i` and with row-`i` entries below `j` already in place, it returns
the exact diagonal `d = D(i)`, fills the row-`i` entries over `[s, i)`,
and touches nothing else. -/
lemma rowLoop_spec (get : ℕ → ℕ → ℚ) (s i : ℕ) :
    ∀ (cnt j : ℕ) (T : ℕ → ℕ → ℚ) (d : ℚ),
      s ≤ j → j + cnt = i →
      ldltInv get s i T →
      (∀ k, s ≤ k → k < j →
        T i k = ldltL get s i k ∧ T k i = ldltC get s k i) →
      d = ldltC get s j i →
      (rowLoop get s i cnt j (T, d)).2 = ldltD get s i ∧
      (∀ k, s ≤ k → k < i →
        (rowLoop get s i cnt j (T, d)).1 i k = ldltL get s i k ∧
        (rowLoop get s i cnt j (T, d)).1 k i = ldltC get s k i) ∧
      (∀ a b, ¬(a = i ∧ s ≤ b ∧ b < i) → ¬(b = i ∧ s ≤ a ∧ a < i) →
        (rowLoop get s i cnt j (T, d)).1 a b = T a b) := by
  intro cnt
  induction cnt with
  | zero =>
    intro j T d hsj hji hInv hRow hd
    have hji' : j = i := by omega
    subst hji'
    refine ⟨?_, ?_, ?_⟩
    · simpa [rowLoop, ldltD] using hd
    · intro k hsk hki
      exact ⟨(hRow k hsk hki).1, (hRow k hsk hki).2⟩
    · intro a b _ _
      rfl
  | succ cnt ih =>
    intro j T d hsj hji hInv hRow hd
    have hjlt : j < i := by omega
    have hTjj : (fset T j i d) j j = T j j := by
      rw [fset_other]
      rintro ⟨_, h2⟩
      omega
    have hDjj : T j j = ldltC get s j j := hInv.1 j hsj hjlt
    -- the two workspace writes of this pass
    set T2 : ℕ → ℕ → ℚ := fset (fset T j i d) i j (d / (fset T j i d) j j)
      with hT2
    have hT2at : ∀ a b, ¬(a = j ∧ b = i) → ¬(a = i ∧ b = j) →
        T2 a b = T a b := by
      intro a b h1 h2
      rw [hT2, fset_other _ _ _ _ _ _ h2, fset_other _ _ _ _ _ _ h1]
    have hT2ij : T2 i j = ldltL get s i j := by
      rw [hT2, fset_self, hTjj, hDjj, hd, ldltL]
    have hT2ji : T2 j i = d := by
      rw [hT2, fset_other, fset_self]
      rintro ⟨h1, _⟩
      omega
    -- row-i entries up to column j+1 are now in place
    have hRow2 : ∀ k, s ≤ k → k < j + 1 →
        T2 i k = ldltL get s i k ∧ T2 k i = ldltC get s k i := by
      intro k hsk hk
      rcases Nat.lt_or_ge k j with hkj | hkj
      · constructor
        · rw [hT2at i k (by rintro ⟨h1, _⟩; omega)
            (by rintro ⟨_, h2⟩; omega)]
          exact (hRow k hsk hkj).1
        · rw [hT2at k i (by rintro ⟨h1, _⟩; omega)
            (by rintro ⟨h1, _⟩; omega)]
          exact (hRow k hsk hkj).2
      · have hkj' : k = j := by omega
        subst hkj'
        exact ⟨hT2ij, by rw [hT2ji, hd]⟩
    -- the freshly computed d is the next exact column value
    have hd' : get i (j+1) - (Finset.Ico s (j+1)).sum
        (fun k => T2 i k * T2 k (j+1)) = ldltC get s (j+1) i := by
      rw [ldltC_eq]
      congr 1
      apply Finset.sum_congr rfl
      intro k hk
      have hks : s ≤ k := (Finset.mem_Ico.mp hk).1
      have hkj : k < j + 1 := (Finset.mem_Ico.mp hk).2
      have hik : T2 i k = ldltL get s i k := (hRow2 k hks hkj).1
      have hkj1 : T2 k (j+1) = ldltC get s k (j+1) := by
        rcases Nat.lt_or_ge (j+1) i with hj1 | hj1
        · rw [hT2at k (j+1) (by rintro ⟨_, h2⟩; omega)
            (by rintro ⟨h1, _⟩; omega)]
          exact (hInv.2 k (j+1) hks (by omega) hj1).1
        · have hj1' : j + 1 = i := by omega
          rw [hj1']
          exact (hRow2 k hks hkj).2
      rw [hik, hkj1, ldltL, div_mul_eq_mul_div]
    -- the workspace invariant survives the two writes
    have hInv2 : ldltInv get s i T2 := by
      constructor
      · intro a hsa hai
        rw [hT2at a a (by rintro ⟨h1, h2⟩; omega)
          (by rintro ⟨h1, h2⟩; omega)]
        exact hInv.1 a hsa hai
      · intro a b hsa hab hbi
        have h1 : T2 a b = T a b := by
          apply hT2at <;> · rintro ⟨h1, h2⟩; omega
        have h2 : T2 b a = T b a := by
          apply hT2at <;> · rintro ⟨h1, h2⟩; omega
        rw [h1, h2]
        exact hInv.2 a b hsa hab hbi
    -- unfold one pass of the loop
    have hunf : rowLoop get s i (cnt+1) j (T, d)
        = rowLoop get s i cnt (j+1) (T2,
            get i (j+1) - (Finset.Ico s (j+1)).sum
              (fun k => T2 i k * T2 k (j+1))) := by
      simp only [rowLoop, rowStep]
    rw [hunf]
    obtain ⟨hc1, hc2, hc3⟩ := ih (j+1) T2
      (get i (j+1) - (Finset.Ico s (j+1)).sum (fun k => T2 i k * T2 k (j+1)))
      (by omega) (by omega) hInv2 hRow2 hd'
    refine ⟨hc1, hc2, ?_⟩
    intro a b h1 h2
    rw [hc3 a b h1 h2]
    apply hT2at
    · rintro ⟨ha, hb⟩
      exact h2 ⟨hb, by omega, by omega⟩
    · rintro ⟨ha, hb⟩
      exact h1 ⟨ha, by omega, by omega⟩

/-- `get i s` is the exact first column value of row `i`. -/
lemma ldltC_first (get : ℕ → ℕ → ℚ) (s i : ℕ) :
    ldltC get s s i = get i s := by
  rw [ldltC_eq]
  simp

/-- The invariant extends over the freshly written row and diagonal. -/
lemma ldltInv_extend (get : ℕ → ℕ → ℚ) (s i : ℕ) (T Tr : ℕ → ℕ → ℚ)
    (hsi : s ≤ i) (hInv : ldltInv get s i T)
    (hc2 : ∀ k, s ≤ k → k < i →
      Tr i k = ldltL get s i k ∧ Tr k i = ldltC get s k i)
    (hc3 : ∀ a b, ¬(a = i ∧ s ≤ b ∧ b < i) → ¬(b = i ∧ s ≤ a ∧ a < i) →
      Tr a b = T a b) (d : ℚ) (hd : d = ldltD get s i) :
    ldltInv get s (i+1) (fset Tr i i d) := by
  constructor
  · intro j hsj hji
    rcases Nat.lt_or_ge j i with hj | hj
    · rw [fset_other _ _ _ _ _ _ (by rintro ⟨h1, _⟩; omega),
        hc3 j j (by rintro ⟨h1, _⟩; omega) (by rintro ⟨h1, _⟩; omega)]
      exact hInv.1 j hsj hj
    · have : j = i := by omega
      subst this
      rw [fset_self, hd]
  · intro a b hsa hab hbi
    rcases Nat.lt_or_ge b i with hb | hb
    · constructor
      · rw [fset_other _ _ _ _ _ _ (by rintro ⟨h1, _⟩; omega),
          hc3 a b (by rintro ⟨h1, _⟩; omega) (by rintro ⟨h1, _⟩; omega)]
        exact (hInv.2 a b hsa hab hb).1
      · rw [fset_other _ _ _ _ _ _ (by rintro ⟨h1, _⟩; omega),
          hc3 b a (by rintro ⟨h1, _⟩; omega) (by rintro ⟨h1, _⟩; omega)]
        exact (hInv.2 a b hsa hab hb).2
    · have : b = i := by omega
      subst this
      constructor
      · rw [fset_other _ _ _ _ _ _ (by rintro ⟨h1, h2⟩; omega)]
        exact (hc2 a hsa hab).2
      · rw [fset_other _ _ _ _ _ _ (by rintro ⟨h1, h2⟩; omega)]
        exact (hc2 a hsa hab).1

/-- Characterization of the `factor` row loop: starting at row `i` with
the invariant holding for rows `[s, i)`, either every remaining diagonal
is positive and the loop completes with `stop = 0`, or the loop fails at
the first remaining index `m` with `D(m) ≤ 0`, recording `stop = m+1`
and leaving the workspace correct for rows `[s, m]`. -/
lemma factorGo_spec (get : ℕ → ℕ → ℚ) (n s : ℕ) :
    ∀ (fuel i : ℕ) (T : ℕ → ℕ → ℚ),
      i + fuel = n → s ≤ i → ldltInv get s i T →
      ((factorGo get s fuel i T).2 = 0 ∧
        (∀ j, i ≤ j → j < n → 0 < ldltD get s j) ∧
        ldltInv get s n (factorGo get s fuel i T).1) ∨
      (∃ m, i ≤ m ∧ m < n ∧ (factorGo get s fuel i T).2 = m + 1 ∧
        ldltD get s m ≤ 0 ∧ (∀ j, i ≤ j → j < m → 0 < ldltD get s j) ∧
        ldltInv get s (m+1) (factorGo get s fuel i T).1) := by
  intro fuel
  induction fuel with
  | zero =>
    intro i T hin hsi hInv
    have : i = n := by omega
    subst this
    exact Or.inl ⟨rfl, fun j h1 h2 => absurd h2 (by omega), hInv⟩
  | succ fuel ih =>
    intro i T hin hsi hInv
    have hilt : i < n := by omega
    obtain ⟨hc1, hc2, hc3⟩ := rowLoop_spec get s i (i - s) s T (get i s)
      (le_refl s) (by omega) hInv
      (fun k hk1 hk2 => absurd (by omega : ¬(k < s)) (by simp [hk2]))
      (ldltC_first get s i).symm
    have hInv2 := ldltInv_extend get s i T
      (rowLoop get s i (i - s) s (T, get i s)).1
      hsi hInv hc2 hc3 (rowLoop get s i (i - s) s (T, get i s)).2 hc1
    by_cases hneg : (rowLoop get s i (i - s) s (T, get i s)).2 ≤ 0
    · right
      refine ⟨i, le_refl i, hilt, ?_, ?_, ?_, ?_⟩
      · show (factorGo get s (fuel+1) i T).2 = i + 1
        simp only [factorGo]
        rw [if_pos hneg]
      · rw [← hc1]; exact hneg
      · intro j h1 h2; omega
      · show ldltInv get s (i+1) (factorGo get s (fuel+1) i T).1
        have : (factorGo get s (fuel+1) i T).1
            = fset (rowLoop get s i (i - s) s (T, get i s)).1 i i
                (rowLoop get s i (i - s) s (T, get i s)).2 := by
          simp only [factorGo]
          rw [if_pos hneg]
        rw [this]
        exact hInv2
    · have hpos : 0 < ldltD get s i := by
        rw [← hc1]
        exact lt_of_not_ge (fun hge => hneg hge)
      have hrec := ih (i+1)
        (fset (rowLoop get s i (i - s) s (T, get i s)).1 i i
          (rowLoop get s i (i - s) s (T, get i s)).2)
        (by omega) (by omega) hInv2
      have hunf : factorGo get s (fuel+1) i T
          = factorGo get s fuel (i+1)
              (fset (rowLoop get s i (i - s) s (T, get i s)).1 i i
                (rowLoop get s i (i - s) s (T, get i s)).2) := by
        simp only [factorGo]
        rw [if_neg hneg]
      rw [hunf]
      rcases hrec with ⟨h1, h2, h3⟩ | ⟨m, hm1, hm2, hm3, hm4, hm5, hm6⟩
      · left
        refine ⟨h1, ?_, h3⟩
        intro j hj1 hj2
        rcases Nat.eq_or_lt_of_le hj1 with he | hlt
        · rw [← he]; exact hpos
        · exact h2 j hlt hj2
      · right
        refine ⟨m, by omega, hm2, hm3, hm4, ?_, hm6⟩
        intro j hj1 hj2
        rcases Nat.eq_or_lt_of_le hj1 with he | hlt
        · rw [← he]; exact hpos
        · exact hm5 j hlt hj2

/-- The row loop reads the accessor only at row `i`. -/
lemma rowLoop_congr (get get' : ℕ → ℕ → ℚ) (s i : ℕ)
    (hrow : ∀ b, get' i b = get i b) :
    ∀ (cnt j : ℕ) (Td : (ℕ → ℕ → ℚ) × ℚ),
      rowLoop get' s i cnt j Td = rowLoop get s i cnt j Td := by
  intro cnt
  induction cnt with
  | zero => intro j Td; rfl
  | succ cnt ih =>
    intro j Td
    show rowLoop get' s i cnt (j+1) (rowStep get' s i j Td) = _
    rw [ih, show rowStep get' s i j Td = rowStep get s i j Td by
      rw [rowStep, rowStep, hrow]]
    rfl

/-- A recorded failure index exceeds the starting row. -/
lemma factorGo_stop_pos (get : ℕ → ℕ → ℚ) (s : ℕ) :
    ∀ (fuel i : ℕ) (T : ℕ → ℕ → ℚ),
      (factorGo get s fuel i T).2 ≠ 0 → i < (factorGo get s fuel i T).2 := by
  intro fuel
  induction fuel with
  | zero => intro i T h; exact absurd rfl h
  | succ fuel ih =>
    intro i T h
    by_cases hneg : (rowLoop get s i (i - s) s (T, get i s)).2 ≤ 0
    · have hunf : (factorGo get s (fuel+1) i T).2 = i + 1 := by
        simp only [factorGo]
        rw [if_pos hneg]
      rw [hunf]
      omega
    · have hunf : factorGo get s (fuel+1) i T
          = factorGo get s fuel (i+1)
              (fset (rowLoop get s i (i - s) s (T, get i s)).1 i i
                (rowLoop get s i (i - s) s (T, get i s)).2) := by
        simp only [factorGo]
        rw [if_neg hneg]
      rw [hunf] at h ⊢
      have := ih (i+1) _ h
      omega

/-- The `factor` loop stops at the failure row: its result is unchanged
under any modification of the accessor at rows at or beyond the recorded
`stop` (the loop never reads them). -/
lemma factorGo_congr (get get' : ℕ → ℕ → ℚ) (s : ℕ) :
    ∀ (fuel i : ℕ) (T : ℕ → ℕ → ℚ),
      (factorGo get s fuel i T).2 ≠ 0 →
      (∀ a b, a < (factorGo get s fuel i T).2 → get' a b = get a b) →
      factorGo get' s fuel i T = factorGo get s fuel i T := by
  intro fuel
  induction fuel with
  | zero => intro i T h _; exact absurd rfl h
  | succ fuel ih =>
    intro i T h hagree
    have hlt : i < (factorGo get s (fuel+1) i T).2 :=
      factorGo_stop_pos get s (fuel+1) i T h
    have hrowi : ∀ b, get' i b = get i b := fun b => hagree i b hlt
    have hrl : rowLoop get' s i (i - s) s (T, get' i s)
        = rowLoop get s i (i - s) s (T, get i s) := by
      rw [hrowi s, rowLoop_congr get get' s i hrowi]
    by_cases hneg : (rowLoop get s i (i - s) s (T, get i s)).2 ≤ 0
    · show (let Td := rowLoop get' s i (i - s) s (T, get' i s)
        let T2 := fset Td.1 i i Td.2
        if Td.2 ≤ 0 then (T2, i+1) else factorGo get' s fuel (i+1) T2) = _
      rw [hrl]
      show (if (rowLoop get s i (i - s) s (T, get i s)).2 ≤ 0 then _
        else _) = _
      rw [if_pos hneg]
      show _ = (let Td := rowLoop get s i (i - s) s (T, get i s)
        let T2 := fset Td.1 i i Td.2
        if Td.2 ≤ 0 then (T2, i+1) else factorGo get s fuel (i+1) T2)
      rw [show (let Td := rowLoop get s i (i - s) s (T, get i s)
        let T2 := fset Td.1 i i Td.2
        if Td.2 ≤ 0 then (T2, i+1) else factorGo get s fuel (i+1) T2)
          = if (rowLoop get s i (i - s) s (T, get i s)).2 ≤ 0 then
              (fset (rowLoop get s i (i - s) s (T, get i s)).1 i i
                (rowLoop get s i (i - s) s (T, get i s)).2, i+1)
            else factorGo get s fuel (i+1)
              (fset (rowLoop get s i (i - s) s (T, get i s)).1 i i
                (rowLoop get s i (i - s) s (T, get i s)).2) from rfl]
      rw [if_pos hneg]
    · have hunf : factorGo get s (fuel+1) i T
          = factorGo get s fuel (i+1)
              (fset (rowLoop get s i (i - s) s (T, get i s)).1 i i
                (rowLoop get s i (i - s) s (T, get i s)).2) := by
        simp only [factorGo]
        rw [if_neg hneg]
      have hunf' : factorGo get' s (fuel+1) i T
          = factorGo get' s fuel (i+1)
              (fset (rowLoop get s i (i - s) s (T, get i s)).1 i i
                (rowLoop get s i (i - s) s (T, get i s)).2) := by
        show (let Td := rowLoop get' s i (i - s) s (T, get' i s)
          let T2 := fset Td.1 i i Td.2
          if Td.2 ≤ 0 then (T2, i+1) else factorGo get' s fuel (i+1) T2) = _
        rw [hrl]
        show (if (rowLoop get s i (i - s) s (T, get i s)).2 ≤ 0 then _
          else _) = _
        rw [if_neg hneg]
      rw [hunf'] at *
      rw [hunf] at h hagree ⊢
      exact ih (i+1) _ h hagree

/-- **C5.** `LDLTMgr::factor(get)` returns false iff some exact LDLT
diagonal `D(i)` over `[0, n)` is ≤ 0; at the first such index it records
`stop = i+1` (with `start = 0`) and stops the factorization immediately
— its entire result is insensitive to the accessor's values on rows
at or beyond `stop`; when it returns true, every diagonal was strictly
positive and the full factorization was completed in the workspace. -/
theorem LDLTMgr_factor_spec (n : ℕ) (get T₀ : ℕ → ℕ → ℚ) :
    ((LDLTMgr.factor n get T₀).2 = false ↔
      ∃ i, i < n ∧ ldltD get 0 i ≤ 0) ∧
    (∀ m, m < n → ldltD get 0 m ≤ 0 → (∀ j, j < m → 0 < ldltD get 0 j) →
      (LDLTMgr.factor n get T₀).2 = false ∧
      (LDLTMgr.factor n get T₀).1.stop = m + 1 ∧
      (LDLTMgr.factor n get T₀).1.start = 0) ∧
    ((LDLTMgr.factor n get T₀).2 = true →
      (∀ i, i < n → 0 < ldltD get 0 i) ∧
      ldltInv get 0 n (LDLTMgr.factor n get T₀).1.T) ∧
    ((LDLTMgr.factor n get T₀).2 = false →
      ∀ get', (∀ a b, a < (LDLTMgr.factor n get T₀).1.stop →
          get' a b = get a b) →
        LDLTMgr.factor n get' T₀ = LDLTMgr.factor n get T₀) := by
  have hInv0 : ldltInv get 0 0 T₀ :=
    ⟨fun j _ hj => absurd hj (by omega),
     fun j i _ _ hi => absurd hi (by omega)⟩
  have hspec := factorGo_spec get n 0 n 0 T₀ (by omega) (by omega) hInv0
  have hb : (LDLTMgr.factor n get T₀).2
      = decide ((factorGo get 0 n 0 T₀).2 = 0) := rfl
  have hstop : (LDLTMgr.factor n get T₀).1.stop
      = (factorGo get 0 n 0 T₀).2 := rfl
  have hT : (LDLTMgr.factor n get T₀).1.T = (factorGo get 0 n 0 T₀).1 := rfl
  refine ⟨⟨?_, ?_⟩, ?_, ?_, ?_⟩
  · intro hfalse
    rw [hb, decide_eq_false_iff_not] at hfalse
    rcases hspec with ⟨h1, _, _⟩ | ⟨m, _, hm2, _, hm4, _, _⟩
    · exact absurd h1 hfalse
    · exact ⟨m, hm2, hm4⟩
  · rintro ⟨i, hi, hDi⟩
    rw [hb, decide_eq_false_iff_not]
    intro hzero
    rcases hspec with ⟨_, h2, _⟩ | ⟨m, _, _, hm3, _, _, _⟩
    · exact absurd (h2 i (by omega) hi) (not_lt.mpr hDi)
    · rw [hm3] at hzero
      exact absurd hzero (by omega)
  · intro m hm hDm hfirst
    rcases hspec with ⟨_, h2, _⟩ | ⟨m', _, hm2, hm3, hm4, hm5, _⟩
    · exact absurd (h2 m (by omega) hm) (by linarith)
    · have hmm : m' = m := by
        rcases Nat.lt_trichotomy m' m with h | h | h
        · exact absurd (hfirst m' h) (by linarith)
        · exact h
        · exact absurd (hm5 m (by omega) h) (by linarith)
      subst hmm
      refine ⟨?_, ?_, rfl⟩
      · rw [hb, hm3]
        simp
      · rw [hstop, hm3]
  · intro htrue
    rw [hb, decide_eq_true_eq] at htrue
    rcases hspec with ⟨_, h2, h3⟩ | ⟨m, _, _, hm3, _, _, _⟩
    · exact ⟨fun i hi => h2 i (by omega) hi, by rw [hT]; exact h3⟩
    · rw [hm3] at htrue
      exact absurd htrue (by omega)
  · intro hfalse get' hagree
    rw [hb, decide_eq_false_iff_not] at hfalse
    rw [hstop] at hagree
    have := factorGo_congr get get' 0 n 0 T₀ hfalse hagree
    show (LDLTMgr.mk (factorGo get' 0 n 0 T₀).1 0 (factorGo get' 0 n 0 T₀).2,
        decide ((factorGo get' 0 n 0 T₀).2 = 0))
      = (LDLTMgr.mk (factorGo get 0 n 0 T₀).1 0 (factorGo get 0 n 0 T₀).2,
        decide ((factorGo get 0 n 0 T₀).2 = 0))
    rw [this]

/-! ### The semidefinite-allowing variant

`factor_with_allow_semidefinte` advances `start` past every exactly-zero
diagonal, so each row is factorized within the block that begins at the
current `start`.  `semiStart get i` is the value of `start` when row `i`
is processed, and `semiD get i` the diagonal the loop computes there. -/

/-- The evolving `start` of `factor_with_allow_semidefinte`: advanced to
`i+1` whenever the block-local diagonal at row `i` is exactly zero. -/
def semiStart (get : ℕ → ℕ → ℚ) : ℕ → ℕ
  | 0 => 0
  | i+1 => if ldltD get (semiStart get i) i = 0 then i + 1 else semiStart get i

/-- The block-local diagonal computed at row `i` by the
semidefinite-allowing factorization. -/
def semiD (get : ℕ → ℕ → ℚ) (i : ℕ) : ℚ :=
  ldltD get (semiStart get i) i

lemma semiStart_le (get : ℕ → ℕ → ℚ) : ∀ i, semiStart get i ≤ i := by
  intro i
  induction i with
  | zero => exact le_refl 0
  | succ i ih =>
    rw [semiStart]
    split
    · exact le_refl _
    · omega

/-- **C6.** helper fact is not needed beyond the loop characterization
below. -/
lemma factorSemiGo_spec (get : ℕ → ℕ → ℚ) (n : ℕ) :
    ∀ (fuel i : ℕ) (T : ℕ → ℕ → ℚ),
      i + fuel = n → ldltInv get (semiStart get i) i T →
      ((factorSemiGo get fuel i (semiStart get i) T).2.2 = 0 ∧
        (∀ j, i ≤ j → j < n → 0 ≤ semiD get j) ∧
        (factorSemiGo get fuel i (semiStart get i) T).2.1
          = semiStart get n) ∨
      (∃ m, i ≤ m ∧ m < n ∧
        (factorSemiGo get fuel i (semiStart get i) T).2.2 = m + 1 ∧
        semiD get m < 0 ∧ (∀ j, i ≤ j → j < m → 0 ≤ semiD get j) ∧
        (factorSemiGo get fuel i (semiStart get i) T).2.1
          = semiStart get m ∧
        ldltInv get (semiStart get m) (m+1)
          (factorSemiGo get fuel i (semiStart get i) T).1) := by
  intro fuel
  induction fuel with
  | zero =>
    intro i T hin hInv
    have hi : i = n := by omega
    subst hi
    exact Or.inl ⟨rfl, fun j h1 h2 => absurd h2 (by omega), rfl⟩
  | succ fuel ih =>
    intro i T hin hInv
    have hilt : i < n := by omega
    have hsi : semiStart get i ≤ i := semiStart_le get i
    obtain ⟨hc1, hc2, hc3⟩ := rowLoop_spec get (semiStart get i) i
      (i - semiStart get i) (semiStart get i) T (get i (semiStart get i))
      (le_refl _) (by omega) hInv
      (fun k hk1 hk2 => absurd hk2 (by omega))
      (ldltC_first get (semiStart get i) i).symm
    set dd := (rowLoop get (semiStart get i) i (i - semiStart get i)
      (semiStart get i) (T, get i (semiStart get i))).2 with hdd
    set Tr := (rowLoop get (semiStart get i) i (i - semiStart get i)
      (semiStart get i) (T, get i (semiStart get i))).1 with hTr
    have hdsemi : dd = semiD get i := hc1
    by_cases hneg : dd < 0
    · right
      have hunf : factorSemiGo get (fuel+1) i (semiStart get i) T
          = (fset Tr i i dd, semiStart get i, i + 1) := by
        simp only [factorSemiGo]
        rw [if_pos hneg]
      refine ⟨i, le_refl i, hilt, ?_, ?_, ?_, ?_, ?_⟩
      · rw [hunf]
      · rw [← hdsemi]; exact hneg
      · intro j h1 h2; omega
      · rw [hunf]
      · rw [hunf]
        exact ldltInv_extend get (semiStart get i) i T Tr hsi hInv hc2 hc3 dd
          hc1
    · by_cases hzero : dd = 0
      · have hstep : semiStart get (i+1) = i + 1 := by
          rw [semiStart, if_pos (hc1.symm.trans hzero)]
        have hunf : factorSemiGo get (fuel+1) i (semiStart get i) T
            = factorSemiGo get fuel (i+1) (i+1) (fset Tr i i dd) := by
          simp only [factorSemiGo]
          rw [if_neg hneg, if_pos hzero]
        have hInv1 : ldltInv get (semiStart get (i+1)) (i+1)
            (fset Tr i i dd) := by
          rw [hstep]
          exact ⟨fun j h1 h2 => absurd h2 (by omega),
            fun j k h1 h2 h3 => absurd h3 (by omega)⟩
        have hrec := ih (i+1) (fset Tr i i dd) (by omega) hInv1
        rw [hstep] at hrec
        rw [hunf]
        rcases hrec with ⟨h1, h2, h3⟩ | ⟨m, hm1, hm2, hm3, hm4, hm5, hm6, hm7⟩
        · left
          refine ⟨h1, ?_, h3⟩
          intro j hj1 hj2
          rcases Nat.eq_or_lt_of_le hj1 with he | hlt
          · rw [← he, ← hdsemi, hzero]
          · exact h2 j hlt hj2
        · right
          refine ⟨m, by omega, hm2, hm3, hm4, ?_, hm6, hm7⟩
          intro j hj1 hj2
          rcases Nat.eq_or_lt_of_le hj1 with he | hlt
          · rw [← he, ← hdsemi, hzero]
          · exact hm5 j hlt hj2
      · have hpos : 0 < dd := by
          rcases lt_trichotomy dd 0 with h | h | h
          · exact absurd h hneg
          · exact absurd h hzero
          · exact h
        have hstep : semiStart get (i+1) = semiStart get i := by
          rw [semiStart, if_neg (by
            intro hc
            exact hzero (hc1.trans hc))]
        have hunf : factorSemiGo get (fuel+1) i (semiStart get i) T
            = factorSemiGo get fuel (i+1) (semiStart get i)
                (fset Tr i i dd) := by
          simp only [factorSemiGo]
          rw [if_neg hneg, if_neg hzero]
        have hInv1 : ldltInv get (semiStart get (i+1)) (i+1)
            (fset Tr i i dd) := by
          rw [hstep]
          exact ldltInv_extend get (semiStart get i) i T Tr hsi hInv hc2 hc3
            dd hc1
        have hrec := ih (i+1) (fset Tr i i dd) (by omega) hInv1
        rw [hstep] at hrec
        rw [hunf]
        rcases hrec with ⟨h1, h2, h3⟩ | ⟨m, hm1, hm2, hm3, hm4, hm5, hm6, hm7⟩
        · left
          refine ⟨h1, ?_, h3⟩
          intro j hj1 hj2
          rcases Nat.eq_or_lt_of_le hj1 with he | hlt
          · rw [← he, ← hdsemi]; exact le_of_lt hpos
          · exact h2 j hlt hj2
        · right
          refine ⟨m, by omega, hm2, hm3, hm4, ?_, hm6, hm7⟩
          intro j hj1 hj2
          rcases Nat.eq_or_lt_of_le hj1 with he | hlt
          · rw [← he, ← hdsemi]; exact le_of_lt hpos
          · exact hm5 j hlt hj2

/-- **C6.** `LDLTMgr::factor_with_allow_semidefinte(get)` fails (records
`stop = i+1` and returns false) exactly when some block-local diagonal
`semiD` is strictly negative, at the first such index; a zero diagonal
at row `i` instead advances `start` to `i+1` and continues, restarting
the factorization from the next diagonal (captured by `semiStart`); on
success every block-local diagonal is nonnegative. -/
theorem LDLTMgr_factor_semidef_spec (n : ℕ) (get T₀ : ℕ → ℕ → ℚ) :
    ((LDLTMgr.factor_with_allow_semidefinte n get T₀).2 = false ↔
      ∃ i, i < n ∧ semiD get i < 0) ∧
    (∀ m, m < n → semiD get m < 0 → (∀ j, j < m → 0 ≤ semiD get j) →
      (LDLTMgr.factor_with_allow_semidefinte n get T₀).2 = false ∧
      (LDLTMgr.factor_with_allow_semidefinte n get T₀).1.stop = m + 1 ∧
      (LDLTMgr.factor_with_allow_semidefinte n get T₀).1.start
        = semiStart get m) ∧
    ((LDLTMgr.factor_with_allow_semidefinte n get T₀).2 = true →
      (∀ i, i < n → 0 ≤ semiD get i) ∧
      (LDLTMgr.factor_with_allow_semidefinte n get T₀).1.start
        = semiStart get n) := by
  have hInv0 : ldltInv get (semiStart get 0) 0 T₀ :=
    ⟨fun j _ hj => absurd hj (by omega),
     fun j i _ _ hi => absurd hi (by omega)⟩
  have hspec := factorSemiGo_spec get n n 0 T₀ (by omega) hInv0
  rw [show semiStart get 0 = 0 from rfl] at hspec
  have hb : (LDLTMgr.factor_with_allow_semidefinte n get T₀).2
      = decide ((factorSemiGo get n 0 0 T₀).2.2 = 0) := rfl
  have hstop : (LDLTMgr.factor_with_allow_semidefinte n get T₀).1.stop
      = (factorSemiGo get n 0 0 T₀).2.2 := rfl
  have hstart : (LDLTMgr.factor_with_allow_semidefinte n get T₀).1.start
      = (factorSemiGo get n 0 0 T₀).2.1 := rfl
  refine ⟨⟨?_, ?_⟩, ?_, ?_⟩
  · intro hfalse
    rw [hb, decide_eq_false_iff_not] at hfalse
    rcases hspec with ⟨h1, _, _⟩ | ⟨m, _, hm2, _, hm4, _, _, _⟩
    · exact absurd h1 hfalse
    · exact ⟨m, hm2, hm4⟩
  · rintro ⟨i, hi, hDi⟩
    rw [hb, decide_eq_false_iff_not]
    intro hzero
    rcases hspec with ⟨_, h2, _⟩ | ⟨m, _, _, hm3, _, _, _, _⟩
    · exact absurd (h2 i (by omega) hi) (not_le.mpr hDi)
    · rw [hm3] at hzero
      exact absurd hzero (by omega)
  · intro m hm hDm hfirst
    rcases hspec with ⟨_, h2, _⟩ | ⟨m', _, hm2, hm3, hm4, hm5, hm6, _⟩
    · exact absurd (h2 m (by omega) hm) (not_le.mpr hDm)
    · have hmm : m' = m := by
        rcases Nat.lt_trichotomy m' m with h | h | h
        · exact absurd (hfirst m' h) (not_le.mpr hm4)
        · exact h
        · exact absurd (hm5 m (by omega) h) (not_le.mpr hDm)
      subst hmm
      refine ⟨?_, ?_, ?_⟩
      · rw [hb, hm3]
        simp
      · rw [hstop, hm3]
      · rw [hstart, hm6]
  · intro htrue
    rw [hb, decide_eq_true_eq] at htrue
    rcases hspec with ⟨_, h2, h3⟩ | ⟨m, _, _, hm3, _, _, _, _⟩
    · exact ⟨fun i hi => h2 i (by omega) hi, by rw [hstart, h3]⟩
    · rw [hm3] at htrue
      exact absurd htrue (by omega)

/-! ### The witness vector -/

/-- Behaviour of the `witness` loop: it writes exactly the slots
`[s, i)` (downward), each as the negated inner product of the stored
factors with the already-final entries above it. -/
lemma witnessGo_spec (T : ℕ → ℕ → ℚ) (nstop s : ℕ) :
    ∀ (cnt i : ℕ) (v : ℕ → ℚ), i = s + cnt →
      (∀ a, i ≤ a ∨ a < s → witnessGo T nstop cnt i v a = v a) ∧
      (∀ a, s ≤ a → a < i →
        witnessGo T nstop cnt i v a
          = -(Finset.Ico (a+1) nstop).sum
              (fun k => T k a * witnessGo T nstop cnt i v k)) := by
  intro cnt
  induction cnt with
  | zero =>
    intro i v hi
    refine ⟨fun a _ => rfl, fun a h1 h2 => absurd h2 (by omega)⟩
  | succ cnt ih =>
    intro i v hi
    have hipos : 1 ≤ i := by omega
    have hunf : witnessGo T nstop (cnt+1) i v
        = witnessGo T nstop cnt (i-1)
            (vset v (i-1)
              (-(Finset.Ico i nstop).sum (fun k => T k (i-1) * v k))) := rfl
    set v' : ℕ → ℚ := vset v (i-1)
      (-(Finset.Ico i nstop).sum (fun k => T k (i-1) * v k)) with hv'
    obtain ⟨ih1, ih2⟩ := ih (i-1) v' (by omega)
    have hfix : ∀ a, i - 1 ≤ a →
        witnessGo T nstop cnt (i-1) v' a = v' a :=
      fun a ha => ih1 a (Or.inl ha)
    constructor
    · intro a ha
      rw [hunf]
      rcases ha with ha | ha
      · rw [ih1 a (Or.inl (by omega))]
        simp only [hv', vset]
        rw [if_neg (by omega)]
      · rw [ih1 a (Or.inr ha)]
        simp only [hv', vset]
        rw [if_neg (by omega)]
    · intro a hsa hai
      rcases Nat.lt_or_ge a (i-1) with hlt | hge
      · rw [hunf]
        exact ih2 a hsa hlt
      · have ha : a = i - 1 := by omega
        subst ha
        rw [hunf, hfix (i-1) (le_refl _)]
        simp only [hv', vset, if_true]
        congr 1
        rw [show i - 1 + 1 = i by omega]
        apply Finset.sum_congr rfl
        intro k hk
        have hki : i ≤ k := (Finset.mem_Ico.mp hk).1
        rw [ih1 k (Or.inl (by omega))]
        simp only [hv', vset]
        rw [if_neg (by omega)]

/-- Unit lower-triangular factor with explicit unit diagonal. -/
def ldltLf (get : ℕ → ℕ → ℚ) (s i k : ℕ) : ℚ :=
  if i = k then 1 else ldltC get s k i / ldltC get s k k

/-- The LDLT reconstruction identity on the ordered pairs of the block
`[s, m]`, assuming the block diagonals before `m` are nonzero. -/
lemma ldlt_decomp_le (get : ℕ → ℕ → ℚ) (s m : ℕ)
    (hDpos : ∀ k, s ≤ k → k < m → 0 < ldltC get s k k) :
    ∀ i j, s ≤ j → j ≤ i → i ≤ m →
      get i j = (Finset.Icc s j).sum
        (fun k => ldltLf get s i k * ldltC get s k k * ldltLf get s j k) := by
  intro i j hsj hji him
  have hkey : ldltC get s j i = get i j - (Finset.Ico s j).sum (fun k =>
      ldltC get s k i * ldltC get s k j / ldltC get s k k) := ldltC_eq get s j i
  have hIcc : Finset.Icc s j = insert j (Finset.Ico s j) := by
    ext x
    simp only [Finset.mem_Icc, Finset.mem_insert, Finset.mem_Ico]
    omega
  rw [hIcc, Finset.sum_insert (by simp)]
  have htop : ldltLf get s i j * ldltC get s j j * ldltLf get s j j
      = ldltC get s j i := by
    have hLfjj : ldltLf get s j j = 1 := by rw [ldltLf, if_pos rfl]
    rw [hLfjj, mul_one]
    rcases Nat.eq_or_lt_of_le hji with he | hlt
    · rw [ldltLf, if_pos he.symm, one_mul, ← he]
    · rw [ldltLf, if_neg (by omega)]
      have hjm : j < m := by omega
      have hne : ldltC get s j j ≠ 0 := ne_of_gt (hDpos j hsj hjm)
      exact div_mul_cancel₀ _ hne
  have hrest : (Finset.Ico s j).sum
      (fun k => ldltLf get s i k * ldltC get s k k * ldltLf get s j k)
      = (Finset.Ico s j).sum (fun k =>
          ldltC get s k i * ldltC get s k j / ldltC get s k k) := by
    apply Finset.sum_congr rfl
    intro k hk
    have hks : s ≤ k := (Finset.mem_Ico.mp hk).1
    have hkj : k < j := (Finset.mem_Ico.mp hk).2
    have hkm : k < m := by omega
    have hne : ldltC get s k k ≠ 0 := ne_of_gt (hDpos k hks hkm)
    rw [ldltLf, if_neg (by omega), ldltLf, if_neg (by omega),
      div_mul_cancel₀ _ hne, mul_div_assoc]
  rw [htop, hrest, hkey]
  ring

/-- The LDLT reconstruction identity over the block `[s, m]` with the
triangular condition expressed as a guard, valid for a symmetric
accessor. -/
lemma ldlt_decomp (get : ℕ → ℕ → ℚ) (s m : ℕ)
    (hsym : ∀ i j, get i j = get j i)
    (hDpos : ∀ k, s ≤ k → k < m → 0 < ldltC get s k k) :
    ∀ i j, s ≤ i → i ≤ m → s ≤ j → j ≤ m →
      get i j = (Finset.Icc s m).sum (fun k =>
        if k ≤ i ∧ k ≤ j then
          ldltLf get s i k * ldltC get s k k * ldltLf get s j k
        else 0) := by
  have hguard : ∀ i j, s ≤ j → j ≤ i → i ≤ m →
      (Finset.Icc s m).sum (fun k =>
        if k ≤ i ∧ k ≤ j then
          ldltLf get s i k * ldltC get s k k * ldltLf get s j k
        else 0)
      = (Finset.Icc s j).sum
        (fun k => ldltLf get s i k * ldltC get s k k * ldltLf get s j k) := by
    intro i j hsj hji him
    rw [← Finset.sum_filter]
    congr 1
    ext x
    simp only [Finset.mem_filter, Finset.mem_Icc]
    omega
  intro i j hsi him hsj hjm
  rcases Nat.le_total j i with hji | hij
  · rw [hguard i j hsj hji him]
    exact ldlt_decomp_le get s m hDpos i j hsj hji him
  · have h1 : get i j = get j i := hsym i j
    rw [h1, ldlt_decomp_le get s m hDpos j i hsi hij hjm,
      ← hguard j i hsi hij hjm]
    apply Finset.sum_congr rfl
    intro k _
    by_cases hc : k ≤ i ∧ k ≤ j
    · rw [if_pos hc, if_pos ⟨hc.2, hc.1⟩]
      ring
    · rw [if_neg hc, if_neg (by tauto)]

/-- The witness property: a vector satisfying the back-substitution
recurrence on the block `[s, m]` (and vanishing outside it) has
quadratic form `vᵀ A v = D(m)`, the failing block diagonal. -/
lemma witness_quad (get : ℕ → ℕ → ℚ) (s m : ℕ) (v : ℕ → ℚ)
    (hsm : s ≤ m)
    (hsym : ∀ i j, get i j = get j i)
    (hDpos : ∀ k, s ≤ k → k < m → 0 < ldltC get s k k)
    (hvm : v m = 1)
    (hvrec : ∀ i, s ≤ i → i < m →
      v i = -(Finset.Ioc i m).sum (fun k => ldltL get s k i * v k))
    (hvout : ∀ a, a < s ∨ m < a → v a = 0)
    (n : ℕ) (hmn : m < n) :
    quadForm get v n = ldltC get s m m := by
  have hIsub : Finset.Icc s m ⊆ Finset.range n := by
    intro x hx
    rw [Finset.mem_Icc] at hx
    rw [Finset.mem_range]
    omega
  have hrestrict : quadForm get v n
      = (Finset.Icc s m).sum (fun i => (Finset.Icc s m).sum
          fun j => v i * get i j * v j) := by
    rw [quadForm]
    rw [← Finset.sum_subset hIsub (by
      intro i _ hi
      apply Finset.sum_eq_zero
      intro j _
      rw [hvout i (by rw [Finset.mem_Icc] at hi; omega), zero_mul, zero_mul])]
    apply Finset.sum_congr rfl
    intro i _
    rw [← Finset.sum_subset hIsub (by
      intro j _ hj
      rw [hvout j (by rw [Finset.mem_Icc] at hj; omega), mul_zero])]
  have hsum2 : ∀ i ∈ Finset.Icc s m, ∀ j ∈ Finset.Icc s m,
      v i * get i j * v j
        = (Finset.Icc s m).sum (fun k =>
            (if k ≤ i then ldltLf get s i k * v i else 0)
            * ldltC get s k k
            * (if k ≤ j then ldltLf get s j k * v j else 0)) := by
    intro i hi j hj
    rw [Finset.mem_Icc] at hi hj
    rw [ldlt_decomp get s m hsym hDpos i j hi.1 hi.2 hj.1 hj.2,
      Finset.mul_sum, Finset.sum_mul]
    apply Finset.sum_congr rfl
    intro k _
    by_cases h1 : k ≤ i <;> by_cases h2 : k ≤ j <;>
      simp [h1, h2] <;> ring
  have hpede : ∀ k : ℕ, (Finset.Icc s m).sum (fun i =>
        (Finset.Icc s m).sum fun j =>
          (if k ≤ i then ldltLf get s i k * v i else 0)
          * ldltC get s k k
          * (if k ≤ j then ldltLf get s j k * v j else 0))
      = ((Finset.Icc s m).sum fun i =>
          if k ≤ i then ldltLf get s i k * v i else 0)
        * ldltC get s k k
        * ((Finset.Icc s m).sum fun j =>
            if k ≤ j then ldltLf get s j k * v j else 0) := by
    intro k
    rw [Finset.sum_mul, Finset.sum_mul]
    apply Finset.sum_congr rfl
    intro i _
    rw [Finset.mul_sum]
  have hQ : quadForm get v n = (Finset.Icc s m).sum (fun k =>
      ((Finset.Icc s m).sum fun i =>
        if k ≤ i then ldltLf get s i k * v i else 0)
      * ldltC get s k k
      * ((Finset.Icc s m).sum fun j =>
          if k ≤ j then ldltLf get s j k * v j else 0)) := by
    rw [hrestrict]
    rw [Finset.sum_congr rfl (fun i hi => Finset.sum_congr rfl
      (fun j hj => hsum2 i hi j hj))]
    rw [Finset.sum_congr rfl (fun i _ => Finset.sum_comm)]
    rw [Finset.sum_comm]
    exact Finset.sum_congr rfl (fun k _ => hpede k)
  have huk : ∀ k, s ≤ k → k ≤ m →
      ((Finset.Icc s m).sum fun i =>
        if k ≤ i then ldltLf get s i k * v i else 0)
        = v k + (Finset.Ioc k m).sum (fun i => ldltL get s i k * v i) := by
    intro k hk1 hk2
    rw [← Finset.sum_filter]
    have hfil : (Finset.Icc s m).filter (fun i => k ≤ i) = Finset.Icc k m := by
      ext x
      simp only [Finset.mem_filter, Finset.mem_Icc]
      omega
    rw [hfil]
    have hins : Finset.Icc k m = insert k (Finset.Ioc k m) := by
      ext x
      simp only [Finset.mem_Icc, Finset.mem_insert, Finset.mem_Ioc]
      omega
    rw [hins, Finset.sum_insert (by simp)]
    congr 1
    · rw [ldltLf, if_pos rfl, one_mul]
    · apply Finset.sum_congr rfl
      intro i hi
      have hki : k < i := (Finset.mem_Ioc.mp hi).1
      rw [ldltLf, if_neg (by omega)]
      rfl
  have hukz : ∀ k, s ≤ k → k < m →
      ((Finset.Icc s m).sum fun i =>
        if k ≤ i then ldltLf get s i k * v i else 0) = 0 := by
    intro k hk1 hk2
    rw [huk k hk1 (le_of_lt hk2), hvrec k hk1 hk2]
    ring
  have hum :
      ((Finset.Icc s m).sum fun i =>
        if m ≤ i then ldltLf get s i m * v i else 0) = 1 := by
    rw [huk m hsm (le_refl m), hvm]
    simp
  rw [hQ, Finset.sum_eq_single m]
  · rw [hum, one_mul, mul_one]
  · intro k hk hkm
    rw [Finset.mem_Icc] at hk
    rw [hukz k hk.1 (by omega), zero_mul, zero_mul]
  · intro hm
    exact absurd (by rw [Finset.mem_Icc]; omega : m ∈ Finset.Icc s m) hm

/-- The zero vector: the manager's `witness_vec` member as initialized
at construction (modelled from the spec: the constructor, in the missing
header, zero-initializes the length-`n` vector). -/
def zeroVec : ℕ → ℚ := fun _ => 0

lemma semiStart_mono (get : ℕ → ℕ → ℚ) :
    ∀ i j, i ≤ j → semiStart get i ≤ semiStart get j := by
  intro i j hij
  induction j with
  | zero =>
    have : i = 0 := by omega
    subst this
    exact le_refl _
  | succ j ih =>
    rcases Nat.eq_or_lt_of_le hij with he | hlt
    · rw [he]
    · have h1 := ih (by omega)
      have h2 : semiStart get j ≤ semiStart get (j+1) := by
        rw [semiStart]
        split
        · have := semiStart_le get j
          omega
        · exact le_refl _
      omega

lemma semiStart_idem (get : ℕ → ℕ → ℚ) :
    ∀ m, semiStart get (semiStart get m) = semiStart get m := by
  intro m
  induction m with
  | zero => rfl
  | succ m ih =>
    by_cases hc : ldltD get (semiStart get m) m = 0
    · rw [semiStart, if_pos hc, semiStart, if_pos hc]
    · rw [semiStart, if_neg hc]
      exact ih

/-- Shared core of the witness contract: given a failed block
`[start, m]` whose workspace satisfies the invariant, `witness()` builds
the back-substituted vector, returns `−D(m) ≥ 0`, and the quadratic form
of the vector against the accessor equals `D(m)`. -/
lemma witness_core (n : ℕ) (get : ℕ → ℕ → ℚ)
    (hsym : ∀ i j, get i j = get j i) (st : LDLTMgr) (m : ℕ)
    (hstop : st.stop = m + 1) (hsm : st.start ≤ m) (hmn : m < n)
    (hInv : ldltInv get st.start (m+1) st.T)
    (hDpos : ∀ k, st.start ≤ k → k < m → 0 < ldltC get st.start k k)
    (hDm : ldltC get st.start m m ≤ 0) :
    (st.witness zeroVec).1 (st.stop - 1) = 1 ∧
    (∀ i, st.start ≤ i → i < st.stop - 1 →
      (st.witness zeroVec).1 i
        = -(Finset.Ico (i+1) st.stop).sum
            (fun k => st.T k i * (st.witness zeroVec).1 k)) ∧
    (∀ i, i < st.start → (st.witness zeroVec).1 i = 0) ∧
    (st.witness zeroVec).2
      = -(ldltC get st.start (st.stop - 1) (st.stop - 1)) ∧
    0 ≤ (st.witness zeroVec).2 ∧
    quadForm get (st.witness zeroVec).1 n = -((st.witness zeroVec).2) ∧
    (ldltC get st.start (st.stop - 1) (st.stop - 1) ≠ 0 →
      quadForm get (st.witness zeroVec).1 n < 0) ∧
    (∃ i, st.start ≤ i ∧ i < st.stop ∧ (st.witness zeroVec).1 i ≠ 0) := by
  have hmm : st.stop - 1 = m := by omega
  have hw1 : (st.witness zeroVec).1
      = witnessGo st.T st.stop (m - st.start) m (vset zeroVec m 1) := by
    rw [LDLTMgr.witness, hmm]
  have hw2 : (st.witness zeroVec).2 = -(st.T m m) := by
    rw [LDLTMgr.witness, hmm]
  obtain ⟨hg1, hg2⟩ := witnessGo_spec st.T st.stop st.start (m - st.start) m
    (vset zeroVec m 1) (by omega)
  have hvm : (st.witness zeroVec).1 m = 1 := by
    rw [hw1, hg1 m (Or.inl (le_refl m)), vset, if_pos rfl]
  have hvout : ∀ a, a < st.start ∨ m < a → (st.witness zeroVec).1 a = 0 := by
    intro a ha
    have hne : ¬(a = m) := by
      rcases ha with h | h
      · omega
      · omega
    rcases ha with h | h
    · rw [hw1, hg1 a (Or.inr h), vset, if_neg hne]
      rfl
    · rw [hw1, hg1 a (Or.inl (by omega)), vset, if_neg hne]
      rfl
  have hvrecT : ∀ i, st.start ≤ i → i < m →
      (st.witness zeroVec).1 i
        = -(Finset.Ico (i+1) st.stop).sum
            (fun k => st.T k i * (st.witness zeroVec).1 k) := by
    intro i h1 h2
    rw [hw1]
    exact hg2 i h1 h2
  have hDmm : st.T m m = ldltC get st.start m m :=
    hInv.1 m hsm (by omega)
  have hvrecL : ∀ i, st.start ≤ i → i < m →
      (st.witness zeroVec).1 i
        = -(Finset.Ioc i m).sum
            (fun k => ldltL get st.start k i * (st.witness zeroVec).1 k) := by
    intro i h1 h2
    rw [hvrecT i h1 h2]
    congr 1
    rw [show Finset.Ico (i+1) st.stop = Finset.Ioc i m by
      ext x
      simp only [Finset.mem_Ico, Finset.mem_Ioc]
      omega]
    apply Finset.sum_congr rfl
    intro k hk
    have hik : i < k := (Finset.mem_Ioc.mp hk).1
    have hkm : k ≤ m := (Finset.mem_Ioc.mp hk).2
    rw [(hInv.2 i k h1 hik (by omega)).2]
  have hquad : quadForm get (st.witness zeroVec).1 n
      = ldltC get st.start m m :=
    witness_quad get st.start m (st.witness zeroVec).1 hsm hsym hDpos hvm
      hvrecL hvout n hmn
  refine ⟨?_, ?_, ?_, ?_, ?_, ?_, ?_, ?_⟩
  · rw [hmm]
    exact hvm
  · intro i h1 h2
    rw [hmm] at h2
    exact hvrecT i h1 h2
  · intro i hi
    exact hvout i (Or.inl hi)
  · rw [hw2, hmm, hDmm]
  · rw [hw2, hDmm]
    linarith
  · rw [hquad, hw2, hDmm]
    ring
  · intro hne
    rw [hmm] at hne
    rw [hquad]
    rcases lt_or_eq_of_le hDm with h | h
    · exact h
    · exact absurd h hne
  · exact ⟨m, hsm, by omega, by rw [hvm]; norm_num⟩

/-- **C4 (amended).** After a failed factorization call (either `factor`
or `factor_with_allow_semidefinte`) with recorded range
`p = (start, stop)` over a symmetric accessor, `witness()` builds the
witness vector with `v[stop−1] = 1`,
`v[i] = −Σ_{k>i} T[k,i]·v[k]` for `start ≤ i < stop−1`, and `v[i] = 0`
for `i < start`, and returns `−D[stop−1]`, a *nonnegative* scalar equal
to `−vᵀAv`; hence `vᵀAv ≤ 0`, strictly negative whenever the failing
diagonal `D[stop−1]` is nonzero, and `v` is nonzero on `[start, stop)`.
(The claim's strict positivity fails exactly when `D[stop−1] = 0`.) -/
theorem LDLTMgr_witness_spec (n : ℕ) (get T₀ : ℕ → ℕ → ℚ)
    (hsym : ∀ i j, get i j = get j i) (st : LDLTMgr)
    (hst : LDLTMgr.factor n get T₀ = (st, false) ∨
      LDLTMgr.factor_with_allow_semidefinte n get T₀ = (st, false)) :
    (st.witness zeroVec).1 (st.stop - 1) = 1 ∧
    (∀ i, st.start ≤ i → i < st.stop - 1 →
      (st.witness zeroVec).1 i
        = -(Finset.Ico (i+1) st.stop).sum
            (fun k => st.T k i * (st.witness zeroVec).1 k)) ∧
    (∀ i, i < st.start → (st.witness zeroVec).1 i = 0) ∧
    (st.witness zeroVec).2
      = -(ldltC get st.start (st.stop - 1) (st.stop - 1)) ∧
    0 ≤ (st.witness zeroVec).2 ∧
    quadForm get (st.witness zeroVec).1 n = -((st.witness zeroVec).2) ∧
    (ldltC get st.start (st.stop - 1) (st.stop - 1) ≠ 0 →
      quadForm get (st.witness zeroVec).1 n < 0) ∧
    (∃ i, st.start ≤ i ∧ i < st.stop ∧ (st.witness zeroVec).1 i ≠ 0) := by
  rcases hst with hst | hst
  · have hpair : st = LDLTMgr.mk (factorGo get 0 n 0 T₀).1 0
        (factorGo get 0 n 0 T₀).2 := by
      have h1 := congrArg Prod.fst hst
      exact h1.symm
    have hnz : (factorGo get 0 n 0 T₀).2 ≠ 0 := by
      have h2 := congrArg Prod.snd hst
      rw [show (LDLTMgr.factor n get T₀).2
        = decide ((factorGo get 0 n 0 T₀).2 = 0) from rfl] at h2
      intro hc
      rw [hc] at h2
      simp at h2
    have hInv0 : ldltInv get 0 0 T₀ :=
      ⟨fun j _ hj => absurd hj (by omega),
       fun j i _ _ hi => absurd hi (by omega)⟩
    rcases factorGo_spec get n 0 n 0 T₀ (by omega) (by omega) hInv0 with
      ⟨h1, _, _⟩ | ⟨m, _, hm2, hm3, hm4, hm5, hm6⟩
    · exact absurd h1 hnz
    · have hfields : st.T = (factorGo get 0 n 0 T₀).1 ∧ st.start = 0 ∧
          st.stop = (factorGo get 0 n 0 T₀).2 := by
        rw [hpair]
        exact ⟨rfl, rfl, rfl⟩
      apply witness_core n get hsym st m
      · rw [hfields.2.2, hm3]
      · rw [hfields.2.1]
        omega
      · exact hm2
      · rw [hfields.2.1, hfields.1]
        exact hm6
      · rw [hfields.2.1]
        intro k _ hk
        exact hm5 k (by omega) hk
      · rw [hfields.2.1]
        exact hm4
  · have hpair : st = LDLTMgr.mk (factorSemiGo get n 0 0 T₀).1
        (factorSemiGo get n 0 0 T₀).2.1 (factorSemiGo get n 0 0 T₀).2.2 := by
      have h1 := congrArg Prod.fst hst
      exact h1.symm
    have hnz : (factorSemiGo get n 0 0 T₀).2.2 ≠ 0 := by
      have h2 := congrArg Prod.snd hst
      rw [show (LDLTMgr.factor_with_allow_semidefinte n get T₀).2
        = decide ((factorSemiGo get n 0 0 T₀).2.2 = 0) from rfl] at h2
      intro hc
      rw [hc] at h2
      simp at h2
    have hInv0 : ldltInv get (semiStart get 0) 0 T₀ :=
      ⟨fun j _ hj => absurd hj (by omega),
       fun j i _ _ hi => absurd hi (by omega)⟩
    have hspec := factorSemiGo_spec get n n 0 T₀ (by omega) hInv0
    rw [show semiStart get 0 = 0 from rfl] at hspec
    rcases hspec with ⟨h1, _, _⟩ | ⟨m, _, hm2, hm3, hm4, hm5, hm6, hm7⟩
    · exact absurd h1 hnz
    · have hfields : st.T = (factorSemiGo get n 0 0 T₀).1 ∧
          st.start = (factorSemiGo get n 0 0 T₀).2.1 ∧
          st.stop = (factorSemiGo get n 0 0 T₀).2.2 := by
        rw [hpair]
        exact ⟨rfl, rfl, rfl⟩
      have hstart : st.start = semiStart get m := by
        rw [hfields.2.1, hm6]
      have hsm : st.start ≤ m := by
        rw [hstart]
        exact semiStart_le get m
      have hblock : ∀ k, st.start ≤ k → k ≤ m →
          semiStart get k = semiStart get m := by
        intro k hk1 hk2
        have hup : semiStart get k ≤ semiStart get m :=
          semiStart_mono get k m hk2
        have hdown : semiStart get m ≤ semiStart get k := by
          have h1 : semiStart get (semiStart get m) ≤ semiStart get k :=
            semiStart_mono get (semiStart get m) k (by rw [← hstart]; exact hk1)
          rw [semiStart_idem get m] at h1
          exact h1
        omega
      apply witness_core n get hsym st m
      · rw [hfields.2.2, hm3]
      · exact hsm
      · exact hm2
      · rw [hstart, hfields.1]
        exact hm7
      · intro k hk1 hk2
        have hsk : semiStart get k = semiStart get m := hblock k hk1 (by omega)
        have hnz2 : semiD get k ≠ 0 := by
          intro hz
          have hadv : semiStart get (k+1) = k + 1 := by
            rw [semiStart,
              if_pos (show ldltD get (semiStart get k) k = 0 from hz)]
          have := semiStart_mono get (k+1) m (by omega)
          rw [hadv] at this
          rw [hstart] at hk1
          omega
        have hge : 0 ≤ semiD get k := hm5 k (by omega) hk2
        have hpos : 0 < semiD get k := lt_of_le_of_ne hge (Ne.symm hnz2)
        rw [hstart]
        rw [semiD, ldltD, hsk] at hpos
        exact hpos
      · rw [hstart]
        exact le_of_lt hm4

/-- The accessor of the 1×1 zero matrix (symmetric). -/
def cexGet : ℕ → ℕ → ℚ := fun _ _ => 0

/-- The all-zero initial workspace. -/
def zeroT : ℕ → ℕ → ℚ := fun _ _ => 0

/-- **C4 counterexample.** On the 1×1 zero matrix, `factor` fails (the
diagonal `0` is not positive) with `p = (0, 1)`, but `witness()` returns
`0` — not a strictly positive scalar — and `vᵀ A v = 0`, not strictly
negative, refuting the claim as stated. -/
theorem LDLTMgr_witness_not_strictly_positive :
    (LDLTMgr.factor 1 cexGet zeroT).2 = false ∧
    ¬(0 < ((LDLTMgr.factor 1 cexGet zeroT).1.witness zeroVec).2) ∧
    ¬(quadForm cexGet
        ((LDLTMgr.factor 1 cexGet zeroT).1.witness zeroVec).1 1 < 0) := by
  have hq : quadForm cexGet
      ((LDLTMgr.factor 1 cexGet zeroT).1.witness zeroVec).1 1 = 0 := by
    rw [quadForm]
    apply Finset.sum_eq_zero
    intro i _
    apply Finset.sum_eq_zero
    intro j _
    simp [cexGet]
  exact ⟨by decide, by decide, by rw [hq]; exact lt_irrefl 0⟩

/-! ## `ProfitOracle::assess_optim` (`profit_oracle.cpp`)

The oracle works over `exp`/`log`; it is embedded over `ℝ`.  The state
is the set of members computed by the constructor; `y` is the query
point, `target` the mutable best-so-far objective (returned explicitly,
as the C++ mutates it by reference). -/

/-- Members of `ProfitOracle`. -/
structure ProfitOracle where
  log_pA : ℝ
  log_k : ℝ
  price_out : ℝ × ℝ
  elasticities : ℝ × ℝ

/-- `log_Cobb = log_pA + e₀·y₀ + e₁·y₁`. -/
noncomputable def ProfitOracle.logCobb (P : ProfitOracle) (y : ℝ × ℝ) : ℝ :=
  P.log_pA + P.elasticities.1 * y.1 + P.elasticities.2 * y.2

/-- `vx = p₀·exp(y₀) + p₁·exp(y₁)`. -/
noncomputable def ProfitOracle.vx (P : ProfitOracle) (y : ℝ × ℝ) : ℝ :=
  P.price_out.1 * Real.exp y.1 + P.price_out.2 * Real.exp y.2

/-- `ProfitOracle::assess_optim(y, target)`: returns
`((g, β), shrunk, new target)`. -/
noncomputable def ProfitOracle.assess_optim (P : ProfitOracle)
    (y : ℝ × ℝ) (target : ℝ) : ((ℝ × ℝ) × ℝ) × Bool × ℝ :=
  if 0 < y.1 - P.log_k then (((1, 0), y.1 - P.log_k), false, target)
  else if Real.log (target + P.vx y) - P.logCobb y < 0 then
    (((P.price_out.1 * Real.exp y.1 / Real.exp (P.logCobb y)
        - P.elasticities.1,
       P.price_out.2 * Real.exp y.2 / Real.exp (P.logCobb y)
        - P.elasticities.2), 0),
     true, Real.exp (P.logCobb y) - P.vx y)
  else
    (((P.price_out.1 * Real.exp y.1 / (target + P.vx y) - P.elasticities.1,
       P.price_out.2 * Real.exp y.2 / (target + P.vx y) - P.elasticities.2),
      Real.log (target + P.vx y) - P.logCobb y), false, target)

/-- **C7 (amended).** `assess_optim` returns `shrunk = true` exactly when
it improves the target: the first constraint holds and the profit bound
strictly beats the current target; it then overwrites `target` with the
new achievable objective `exp(log_Cobb) − vx` — strictly larger than the
old target whenever `target + vx > 0` — and the returned cut is central
(`β = 0`).  Whenever `shrunk` is false, the target is left unchanged and
the returned cut has `β ≥ 0` (the claim's strict `β > 0` fails when the
objective constraint is exactly tight). -/
theorem ProfitOracle_assess_optim_spec (P : ProfitOracle) (y : ℝ × ℝ)
    (target : ℝ) :
    ((P.assess_optim y target).2.1 = true ↔
      ¬(0 < y.1 - P.log_k) ∧
        Real.log (target + P.vx y) - P.logCobb y < 0) ∧
    ((P.assess_optim y target).2.1 = true →
      (P.assess_optim y target).1.2 = 0 ∧
      (P.assess_optim y target).2.2 = Real.exp (P.logCobb y) - P.vx y ∧
      (0 < target + P.vx y → target < (P.assess_optim y target).2.2)) ∧
    ((P.assess_optim y target).2.1 = false →
      (P.assess_optim y target).2.2 = target ∧
      0 ≤ (P.assess_optim y target).1.2) := by
  by_cases h1 : 0 < y.1 - P.log_k
  · rw [ProfitOracle.assess_optim, if_pos h1]
    refine ⟨⟨fun hc => absurd hc (by simp), fun hc => absurd h1 hc.1⟩,
      fun hc => absurd hc (by simp), fun _ => ⟨rfl, le_of_lt h1⟩⟩
  · by_cases h2 : Real.log (target + P.vx y) - P.logCobb y < 0
    · rw [ProfitOracle.assess_optim, if_neg h1, if_pos h2]
      refine ⟨⟨fun _ => ⟨h1, h2⟩, fun _ => rfl⟩, fun _ => ⟨rfl, rfl, ?_⟩,
        fun hc => absurd hc (by simp)⟩
      intro hpos
      have hlt : Real.log (target + P.vx y) < P.logCobb y := by linarith
      have hexp : target + P.vx y < Real.exp (P.logCobb y) := by
        calc target + P.vx y = Real.exp (Real.log (target + P.vx y)) :=
              (Real.exp_log hpos).symm
          _ < Real.exp (P.logCobb y) := Real.exp_lt_exp.mpr hlt
      show target < Real.exp (P.logCobb y) - P.vx y
      linarith
    · rw [ProfitOracle.assess_optim, if_neg h1, if_neg h2]
      exact ⟨⟨fun hc => absurd hc (by simp), fun hc => absurd hc.2 h2⟩,
        fun hc => absurd hc (by simp),
        fun _ => ⟨rfl, by simpa using not_lt.mp h2⟩⟩

/-- The concrete oracle of the counterexample:
`log_pA = log 4`, `log_k = 0` (limit `k = 1`), `price_out = (1, 1)`,
`elasticities = (1/2, 1/2)`. -/
noncomputable def cexOracle : ProfitOracle :=
  ⟨Real.log 4, 0, (1, 1), (1/2, 1/2)⟩

/-- **C7 counterexample.** At `y = (0, 0)` with `target = 2`, the
constraint `log(target + vx) − log_Cobb` is exactly `0`: the oracle
returns `shrunk = false` with cut `β = 0`, refuting the claim that every
non-shrinking assessment returns a deep cut (`β > 0`). -/
theorem ProfitOracle_assess_optim_not_deep :
    (cexOracle.assess_optim (0, 0) 2).2.1 = false ∧
    ¬(0 < (cexOracle.assess_optim (0, 0) 2).1.2) := by
  have hvx : cexOracle.vx (0, 0) = 2 := by
    rw [ProfitOracle.vx]
    show (1:ℝ) * Real.exp 0 + 1 * Real.exp 0 = 2
    rw [Real.exp_zero]
    norm_num
  have hlc : cexOracle.logCobb (0, 0) = Real.log 4 := by
    rw [ProfitOracle.logCobb]
    show Real.log 4 + 1/2 * 0 + 1/2 * 0 = Real.log 4
    ring
  have hc1 : ¬(0 < ((0:ℝ), (0:ℝ)).1 - cexOracle.log_k) := by
    show ¬(0 < (0:ℝ) - 0)
    norm_num
  have hzero : Real.log ((2:ℝ) + cexOracle.vx (0, 0))
      - cexOracle.logCobb (0, 0) = 0 := by
    rw [hvx, hlc, show (2:ℝ) + 2 = 4 by norm_num, sub_self]
  have hc2 : ¬(Real.log ((2:ℝ) + cexOracle.vx (0, 0))
      - cexOracle.logCobb (0, 0) < 0) := by
    rw [hzero]
    exact lt_irrefl 0
  rw [ProfitOracle.assess_optim, if_neg hc1, if_neg hc2]
  exact ⟨rfl, by rw [hzero]; exact lt_irrefl 0⟩

/-! ## Concrete instantiations exercising the theorems -/

/-- Demo options: cap 5, tolerance 0. -/
def demoOptions : Options := ⟨5, 0⟩

/-- A scripted feasibility system: the oracle counts its calls and
reports feasibility on the third call. -/
def feasDemo : FeasSys ℕ ℚ Unit ℚ where
  assess_feas om _ := (om + 1, if om = 2 then none else some ())
  xc s := s
  update s _ := (s, CutStatus.Success)
  tsq _ := 1

theorem cutting_plane_feas_spec_witness :
    (cutting_plane_feas feasDemo demoOptions 0 0).num_iters = 2 ∧
    (cutting_plane_feas feasDemo demoOptions 0 0).feasible = true := by
  have h := (cutting_plane_feas_spec feasDemo demoOptions 0 0).1 2
    (by norm_num [demoOptions])
    (by
      intro j hj
      interval_cases j <;>
        norm_num [feasTermAt, feasDoneAt, feasCutStopAt, feasOracleAt,
          feasState, feasStep, feasDemo, demoOptions])
    (by
      norm_num [feasTermAt, feasDoneAt, feasCutStopAt, feasOracleAt,
        feasState, feasStep, feasDemo, demoOptions])
  refine ⟨h.1, h.2.trans ?_⟩
  norm_num [feasDoneAt, feasOracleAt, feasState, feasStep, feasDemo]

/-- A scripted optimization system: `shrunk` on the first call only; the
space stops accepting cuts when its state drops to 1. -/
def optimDemo : OptimSys ℕ ℚ Unit ℚ where
  assess_optim om _ tea := (om + 1, ((), decide (om = 0)), tea)
  xc s := s
  update s _ := (s - 1, if s ≤ 1 then CutStatus.NoSoln else CutStatus.Success)
  tsq _ := 1

theorem cutting_plane_optim_spec_witness :
    cutting_plane_optim optimDemo demoOptions 0 3 0 = (some 3, 2) := by
  have h := (cutting_plane_optim_spec optimDemo demoOptions 0 3 0).2.1 2
    (by norm_num [demoOptions])
    (by
      intro j hj
      interval_cases j <;>
        (norm_num [optimTermAt, optimUpdAt, optimOracleAt, optimState,
          optimStep, optimDemo, demoOptions]) <;>
        decide)
    (by
      norm_num [optimTermAt, optimUpdAt, optimOracleAt, optimState,
        optimStep, optimDemo, demoOptions]
      decide)
  rw [h]
  norm_num [optimBestAt, optimShrunkAt, optimXcAt, optimOracleAt, optimState,
    optimStep, optimDemo]

/-- A scripted discrete system: `shrunk` on the first call with lattice
point 7; the space immediately reports `NoSoln`. -/
def qDemo : QSys ℕ ℚ Unit ℚ where
  assess_q om _ tea _ := (om + 1, ((), decide (om = 0), 7, true), tea)
  xc s := s
  update s _ := (s, CutStatus.NoSoln)
  tsq _ := 1

theorem cutting_plane_q_spec_witness :
    cutting_plane_q qDemo demoOptions 0 0 0 = (some 7, 0) := by
  have h := (cutting_plane_q_spec qDemo demoOptions 0 0 0).2.2.2.1 0
    (by norm_num [demoOptions])
    (by intro j hj; omega)
    (by norm_num [qStatusAt, qUpdAt, qOracleAt, qState, qStep, qDemo])
  rw [h]
  norm_num [qBestAt, qShrunkAt, qX0At, qOracleAt, qState, qStep, qDemo]

/-- A scripted discrete system whose updates always return
`SmallEnough`. -/
def qSmallDemo : QSys ℕ ℚ Unit ℚ where
  assess_q om _ tea _ := (om + 1, ((), false, 7, true), tea)
  xc s := s
  update s _ := (s, CutStatus.SmallEnough)
  tsq _ := 1

theorem small_enough_not_terminating_witness :
    1 ≤ (cutting_plane_q qSmallDemo demoOptions 0 0 0).2 :=
  (small_enough_not_terminating qSmallDemo demoOptions 0 0 0
    feasDemo 0 0 optimDemo 0 3 0).1 0
    (by norm_num [demoOptions])
    (by
      intro j hj
      have hj0 : j = 0 := by omega
      subst hj0
      norm_num [qStopAt, qStatusAt, qUpdAt, qOracleAt, qState, qStep,
        qSmallDemo, qMoreAltAt, demoOptions]
      decide)
    (by norm_num [qStatusAt, qUpdAt, qOracleAt, qState, qStep, qSmallDemo])

/-- A scripted bisection oracle: feasible iff the query is at least 1. -/
def bsDemo : BsOracle ℕ where
  assess_bs om tea := (om + 1, decide (1 ≤ tea))

theorem bsearch_spec_witness :
    (bsearch bsDemo demoOptions 0 (0, 2)).upper
      - (bsearch bsDemo demoOptions 0 (0, 2)).lower < 2 * demoOptions.tol ∨
    (bsearch bsDemo demoOptions 0 (0, 2)).num_iters = demoOptions.max_iter :=
  (bsearch_spec bsDemo demoOptions 0 0 2 (by norm_num)).2.2

/-- Demo space operations for the adaptor. -/
def spDemo : SpaceOps ℚ ℚ Unit where
  update s _ := (s, CutStatus.Success)
  tsq _ := 1

/-- Demo adaptor oracle: the wrapped problem is immediately feasible. -/
def boDemo : FeasOracle ℕ Unit ℚ where
  update om _ := om
  assess_feas om _ := (om + 1, if om = 0 then none else some ())

theorem bsearch_adaptor_assess_bs_spec_witness :
    (bsearch_adaptor_assess_bs boDemo spDemo demoOptions 0 ⟨5, 9⟩ 0).2.2
      = true ∧
    (bsearch_adaptor_assess_bs boDemo spDemo demoOptions 0 ⟨5, 9⟩ 0).2.1.rest
      = 9 := by
  have h := bsearch_adaptor_assess_bs_spec boDemo spDemo demoOptions 0 ⟨5, 9⟩ 0
  have hfeas : (cutting_plane_feas (toFeasSys boDemo spDemo) demoOptions
      (boDemo.update 0 0) (⟨5, 9⟩ : EllState ℚ ℚ)).feasible = true := by
    norm_num [cutting_plane_feas, cpFeasAux, toFeasSys, boDemo, spDemo,
      demoOptions]
  exact ⟨h.1.trans hfeas, h.2.1⟩

/-- The symmetric 2×2 matrix `[[1, 2], [2, 1]]`, indefinite with first
diagonal positive. -/
def wGet : ℕ → ℕ → ℚ := fun i j => if i = j then 1 else 2

lemma wGet_symm : ∀ i j, wGet i j = wGet j i := by
  intro i j
  rw [wGet, wGet]
  rcases eq_or_ne i j with h | h
  · rw [if_pos h, if_pos h.symm]
  · rw [if_neg h, if_neg (Ne.symm h)]

lemma Ico_zero_one : Finset.Ico 0 1 = ({0} : Finset ℕ) := by decide

lemma wGet_D0 : ldltC wGet 0 0 0 = 1 := by
  rw [ldltC_eq]
  simp [wGet]

lemma wGet_D1 : ldltC wGet 0 1 1 = -3 := by
  rw [ldltC_eq, Ico_zero_one, Finset.sum_singleton, wGet_D0]
  rw [show ldltC wGet 0 0 1 = 2 by rw [ldltC_eq]; simp [wGet]]
  norm_num [wGet]

theorem LDLTMgr_factor_spec_witness :
    (LDLTMgr.factor 2 wGet zeroT).2 = false ∧
    (LDLTMgr.factor 2 wGet zeroT).1.stop = 2 ∧
    (LDLTMgr.factor 2 wGet zeroT).1.start = 0 :=
  (LDLTMgr_factor_spec 2 wGet zeroT).2.1 1 (by norm_num)
    (by rw [ldltD, wGet_D1]; norm_num)
    (by
      intro j hj
      have hj0 : j = 0 := by omega
      subst hj0
      rw [ldltD, wGet_D0]
      norm_num)

/-- The diagonal matrix `diag(0, -1)`: the first diagonal is exactly
zero (restart), the second strictly negative (failure). -/
def tGet : ℕ → ℕ → ℚ := fun i j => if i = 1 ∧ j = 1 then -1 else 0

lemma tGet_D0 : ldltD tGet 0 0 = 0 := by
  rw [ldltD, ldltC_eq]
  simp [tGet]

lemma tGet_S1 : semiStart tGet 1 = 1 := by
  rw [semiStart]
  rw [show semiStart tGet 0 = 0 from rfl, if_pos tGet_D0]

lemma tGet_D1 : ldltD tGet 1 1 = -1 := by
  rw [ldltD, ldltC_eq]
  simp [tGet]

theorem LDLTMgr_factor_semidef_spec_witness :
    (LDLTMgr.factor_with_allow_semidefinte 2 tGet zeroT).2 = false ∧
    (LDLTMgr.factor_with_allow_semidefinte 2 tGet zeroT).1.stop = 2 ∧
    (LDLTMgr.factor_with_allow_semidefinte 2 tGet zeroT).1.start
      = semiStart tGet 1 :=
  (LDLTMgr_factor_semidef_spec 2 tGet zeroT).2.1 1 (by norm_num)
    (by rw [semiD, tGet_S1, tGet_D1]; norm_num)
    (by
      intro j hj
      have hj0 : j = 0 := by omega
      subst hj0
      rw [semiD, show semiStart tGet 0 = 0 from rfl, tGet_D0])

theorem LDLTMgr_witness_spec_witness :
    ((LDLTMgr.factor 2 wGet zeroT).1.witness zeroVec).2 = 3 ∧
    quadForm wGet ((LDLTMgr.factor 2 wGet zeroT).1.witness zeroVec).1 2
      = -3 := by
  have hsnd : (LDLTMgr.factor 2 wGet zeroT).2 = false := by
    norm_num [LDLTMgr.factor, LDLTMgr.is_spd, factorGo, rowLoop, rowStep,
      fset, wGet, zeroT, Ico_zero_one, Finset.sum_singleton]
  have hst : LDLTMgr.factor 2 wGet zeroT
      = ((LDLTMgr.factor 2 wGet zeroT).1, false) := by
    rw [← hsnd]
  have h := LDLTMgr_witness_spec 2 wGet zeroT wGet_symm
    (LDLTMgr.factor 2 wGet zeroT).1 (Or.inl hst)
  have hr : ((LDLTMgr.factor 2 wGet zeroT).1.witness zeroVec).2 = 3 := by
    norm_num [LDLTMgr.witness, LDLTMgr.factor, factorGo, rowLoop, rowStep,
      fset, wGet, zeroT, Ico_zero_one, Finset.sum_singleton]
  refine ⟨hr, ?_⟩
  rw [h.2.2.2.2.2.1, hr]

/-- Demo profit oracle: `pA = 1`, `k = 1`, unit prices, unit
elasticities. -/
noncomputable def pDemo : ProfitOracle := ⟨0, 0, (1, 1), (1, 1)⟩

theorem ProfitOracle_assess_optim_spec_witness :
    (pDemo.assess_optim (0, 0) (-(3/2))).2.1 = true ∧
    (pDemo.assess_optim (0, 0) (-(3/2))).1.2 = 0 ∧
    -(3/2) < (pDemo.assess_optim (0, 0) (-(3/2))).2.2 := by
  have hvx : pDemo.vx (0, 0) = 2 := by
    rw [ProfitOracle.vx]
    show (1:ℝ) * Real.exp 0 + 1 * Real.exp 0 = 2
    rw [Real.exp_zero]
    norm_num
  have h := ProfitOracle_assess_optim_spec pDemo (0, 0) (-(3/2))
  have hcond : ¬(0 < ((0:ℝ), (0:ℝ)).1 - pDemo.log_k) ∧
      Real.log (-(3/2) + pDemo.vx ((0:ℝ), (0:ℝ)))
        - pDemo.logCobb ((0:ℝ), (0:ℝ)) < 0 := by
    constructor
    · show ¬(0 < (0:ℝ) - 0)
      norm_num
    · have hlc : pDemo.logCobb (0, 0) = 0 := by
        rw [ProfitOracle.logCobb]
        show (0:ℝ) + 1 * 0 + 1 * 0 = 0
        ring
      rw [hvx, hlc, show (-(3/2:ℝ)) + 2 = 1/2 by norm_num, sub_zero]
      exact Real.log_neg (by norm_num) (by norm_num)
  have hs : (pDemo.assess_optim (0, 0) (-(3/2))).2.1 = true := h.1.mpr hcond
  have h2 := h.2.1 hs
  refine ⟨hs, h2.1, ?_⟩
  exact h2.2.2 (by rw [hvx]; norm_num)

end EllCpp
